import Mathlib

/-!
# ERM script parser (`lib/ERMParser.cpp`)

A shallow embedding of the ERM line parser:

* `ERMParser.countHatsBeforeSemicolon`, `ERMParser.classifyLine`: the line classifier;
* `ERMParser.loopBody`, `ERMParser.parseLines`: the body of the reading loop of
  `ERMParser::parseFile`, one physical line at a time, as explicit state passing;
* namespace `ERM`: the AST types and the rules of `ERM_grammar`, each rule a function
  from the remaining input to a result in `ERM.PResult`;
* `ERMParser.parseLine`: the call of the grammar and its diagnostic;
* `ERMParser.getline`, `ERMParser.readLoop`, `ERMParser.parseFile`: the header check and
  the reading of the physical lines of a file that could be opened.

Strings (`std::string`, `char[]`) are lists of characters.  The physical lines handed to the
loop body are the contents of `lineBuf` after `getline`, so they carry no line terminator.
-/

namespace ERMParser

/-- The enumeration `ERMParser::ELineType`. -/
inductive ELineType
  | COMMAND_FULL
  | COMMENT
  | UNFINISHED_STRING
  | END_OF_STRING
  deriving DecidableEq, Repr

/-- The loop of `countHatsBeforeSemicolon` with a counter that cannot overflow:
`numOfHats` is the running counter, the list is what `BOOST_FOREACH` still has to visit.
This is the count that `classifyLine` works with on the lines `parseFile` gives it, which
come from the 1024-byte `lineBuf`: on a line with fewer than `2^31` hats before its first
semicolon it agrees with the 32-bit loop `countHatsLoopInt32`
(`countHatsInt32_eq_unbounded`). -/
def countHatsLoop : List Char → Int → Int
  | [], numOfHats => numOfHats
  | c :: rest, numOfHats =>
    if c = ';' then numOfHats
    else if c = '^' then countHatsLoop rest (numOfHats + 1)
    else countHatsLoop rest numOfHats

/-- The count of `ERMParser::countHatsBeforeSemicolon` with a counter that cannot
overflow. -/
def countHatsBeforeSemicolon (line : List Char) : Int :=
  countHatsLoop line 0

/-- The value a 32-bit `int` holds for the arithmetic result `x`: the two's-complement
wrap-around into `-2^31 .. 2^31 - 1`. -/
def int32 (x : Int) : Int :=
  (x + 2147483648) % 4294967296 - 2147483648

/-- The loop of `countHatsBeforeSemicolon` with the counter `int numOfHats` as the 32-bit
`int` it is: `++numOfHats` wraps around at `2^31 - 1`. -/
def countHatsLoopInt32 : List Char → Int → Int
  | [], numOfHats => numOfHats
  | c :: rest, numOfHats =>
    if c = ';' then numOfHats
    else if c = '^' then countHatsLoopInt32 rest (int32 (numOfHats + 1))
    else countHatsLoopInt32 rest numOfHats

/-- `ERMParser::countHatsBeforeSemicolon` as a function of any string, returning the 32-bit
`int` of the source. -/
def countHatsBeforeSemicolonInt32 (line : List Char) : Int :=
  countHatsLoopInt32 line 0

/-- `line[0]` of a `const std::string &`: the first character, the null character for the
empty string. -/
def firstChar (line : List Char) : Char :=
  line.headD (Char.ofNat 0)

/-- `ERMParser::classifyLine`.  `%` of C++ truncates towards zero, which is `Int.tmod`. -/
def classifyLine (line : List Char) (inString : Bool) : ELineType :=
  if firstChar line = '!' then
    if (countHatsBeforeSemicolon line).tmod 2 = 1 then ELineType.UNFINISHED_STRING
    else ELineType.COMMAND_FULL
  else
    if inString then
      if (countHatsBeforeSemicolon line).tmod 2 = 1 then ELineType.END_OF_STRING
      else ELineType.UNFINISHED_STRING
    else ELineType.COMMENT

/-- The number of `^` occurring before the first `;` of a line, as the specification words
it: the hats among the characters that precede the first semicolon. -/
def hatsBeforeFirstSemicolon (line : List Char) : Nat :=
  (line.takeWhile (fun c => c != ';')).count '^'

/-- The variables of `parseFile` that live across iterations of the reading loop:
the member `parsedLine` and the locals `wholeLine` and `inString`. -/
structure ParserState where
  parsedLine : Nat
  wholeLine : List Char
  inString : Bool
  deriving DecidableEq, Repr

/-- One call `parseLine(text)`: the text handed to the grammar and the value the member
`parsedLine` has during the call (the number `parseLine` prints in its diagnostic). -/
structure ParseCall where
  parsedLine : Nat
  line : List Char
  deriving DecidableEq, Repr

/-- The `switch` of the reading loop of `parseFile` for one physical line `lineBuf`:
the new values of `wholeLine` and `inString` and the calls of `parseLine` made. -/
def switchLine (st : ParserState) (lineBuf : List Char) : ParserState × List ParseCall :=
  match classifyLine lineBuf st.inString with
  | ELineType.COMMAND_FULL => (st, [⟨st.parsedLine, lineBuf⟩])
  | ELineType.COMMENT => (st, [⟨st.parsedLine, lineBuf⟩])
  | ELineType.UNFINISHED_STRING =>
    ({ st with
        wholeLine := (if st.inString then st.wholeLine else []) ++ lineBuf
        inString := true }, [])
  | ELineType.END_OF_STRING =>
    ({ st with inString := false, wholeLine := st.wholeLine ++ lineBuf },
      [⟨st.parsedLine, st.wholeLine ++ lineBuf⟩])

/-- One iteration of the reading loop of `parseFile` after `getline`: the `switch`, then
`++parsedLine`. -/
def loopBody (st : ParserState) (lineBuf : List Char) : ParserState × List ParseCall :=
  let r := switchLine st lineBuf
  ({ r.1 with parsedLine := r.1.parsedLine + 1 }, r.2)

/-- The reading loop of `parseFile` over a sequence of physical lines: the final state and
the calls of `parseLine`, in order. -/
def parseLines : ParserState → List (List Char) → ParserState × List ParseCall
  | st, [] => (st, [])
  | st, lineBuf :: rest =>
    let r := loopBody st lineBuf
    let r2 := parseLines r.1 rest
    (r2.1, r.2 ++ r2.2)

/-- The state of `parseFile` when the reading loop is entered: `parsedLine = 1`, an empty
`wholeLine`, `inString = false`. -/
def initialState : ParserState :=
  ⟨1, [], false⟩

end ERMParser

namespace ERM

/-- The type `boost::variant<int, std::string>` inside `iexpT::valT`. -/
inductive valItem
  | int (n : Int)
  | str (s : List Char)
  deriving DecidableEq, Repr

/-- The struct `iexpT`. -/
structure iexpT where
  varsym : Option (List Char)
  val : Option valItem
  deriving DecidableEq, Repr

/-- The struct `TArithmeticOp`, its fields in the order of `BOOST_FUSION_ADAPT_STRUCT`. -/
structure TArithmeticOp where
  lhs : iexpT
  opcode : Char
  rhs : iexpT
  deriving DecidableEq, Repr

/-- The type `TIdentifierInternal`, a variant of `iexpT` and `TArithmeticOp`. -/
inductive TIdentifierInternal
  | iexp (e : iexpT)
  | arith (a : TArithmeticOp)
  deriving DecidableEq, Repr

/-- The type `identifierT`, a vector of `TIdentifierInternal`. -/
abbrev identifierT := List TIdentifierInternal

/-- The struct `TComparison`, its fields in the order of `BOOST_FUSION_ADAPT_STRUCT`. -/
structure TComparison where
  lhs : iexpT
  compSign : List Char
  rhs : iexpT
  deriving DecidableEq, Repr

/-- The type `conditionT::Tcond`: a comparison or a condition flag. -/
inductive Tcond
  | comparison (c : TComparison)
  | flag (n : Int)
  deriving DecidableEq, Repr

/-- The struct `conditionT`; `rhs` is the optional recursive node `conditionNodeT`. -/
inductive conditionT
  | mk (ctype : Char) (cond : Tcond) (rhs : Option conditionT)

/-- The type `bodyItem`, a variant of `char` and `std::string`. -/
inductive bodyItem
  | chr (c : Char)
  | str (s : List Char)
  deriving DecidableEq, Repr

/-- The type `bodyTbody`, a vector of `bodyItem`. -/
abbrev bodyTbody := List bodyItem

/-- The struct `triggerT`. -/
structure triggerT where
  name : List Char
  identifier : Option identifierT
  condition : Option conditionT

/-- The struct `instructionT`. -/
structure instructionT where
  name : List Char
  identifier : Option identifierT
  condition : Option conditionT
  body : bodyTbody

/-- The struct `receiverT`. -/
structure receiverT where
  name : List Char
  identifier : Option identifierT
  condition : Option conditionT
  body : bodyTbody

/-- The struct `postOBtriggerT`. -/
structure postOBtriggerT where
  identifier : Option identifierT
  condition : Option conditionT

/-- The type `commandTcmd`, a variant of the four kinds of command. -/
inductive commandTcmd
  | trigger (t : triggerT)
  | instruction (i : instructionT)
  | receiver (r : receiverT)
  | postOBtrigger (p : postOBtriggerT)

/-- The struct `commandT`. -/
structure commandT where
  cmd : commandTcmd
  comment : List Char

/-- The type `lineT`, a variant of `commandT`, `std::string` (a comment line) and
`qi::unused_type` (the attribute of `spirit::eps`, an empty line). -/
inductive lineT
  | command (c : commandT)
  | comment (s : List Char)
  | unused

/-- The outcome of a parser at a position: a match with its attribute and the remaining
input, a plain failure (the enclosing alternative or optional goes on), or the exception
`qi::expectation_failure` thrown by an expectation point `>`. -/
inductive PResult (α : Type)
  | ok (attr : α) (rest : List Char)
  | fail
  | expectationFailure

/-- Sequencing `a >> f`: `f` runs on what `a` left; failures and exceptions of `a` pass. -/
def PResult.andThen {α β : Type} (r : PResult α) (f : α → List Char → PResult β) :
    PResult β :=
  match r with
  | PResult.ok a rest => f a rest
  | PResult.fail => PResult.fail
  | PResult.expectationFailure => PResult.expectationFailure

/-- The optional parser `-p` at input `s`, given the outcome `r` of `p` at `s`: a failure of
`p` is a match of nothing, without attribute. -/
def optional {α : Type} (r : PResult α) (s : List Char) : PResult (Option α) :=
  match r with
  | PResult.ok a rest => PResult.ok (some a) rest
  | PResult.fail => PResult.ok none s
  | PResult.expectationFailure => PResult.expectationFailure

/-- The alternative `p | q` given the outcome `r` of `p` and, lazily, that of `q` at the
same input: `q` is tried only when `p` failed plainly. -/
def orElse {α : Type} (r : PResult α) (q : Unit → PResult α) : PResult α :=
  match r with
  | PResult.fail => q ()
  | other => other

/-- A character range `lo-hi` of a `qi::char_` set. -/
def inRange (lo hi c : Char) : Bool :=
  decide (lo ≤ c) && decide (c ≤ hi)

/-- The set `qi::char_("a-z")`. -/
def lowerLetter (c : Char) : Bool :=
  inRange 'a' 'z' c

/-- The set `qi::char_("&|X/")`. -/
def ctypeChar (c : Char) : Bool :=
  c == '&' || c == '|' || c == 'X' || c == '/'

/-- The set `qi::char_("<=>")`. -/
def compSignChar (c : Char) : Bool :=
  c == '<' || c == '=' || c == '>'

/-- The set `qi::char_("a-zA-Z0-9/ @*?%+-:|&=><-")`.  In a set definition `x-y` is a range,
so `+-:` is the range from `+` to `:`; the last `-` is a literal. -/
def bodyChar (c : Char) : Bool :=
  inRange 'a' 'z' c || inRange 'A' 'Z' c || inRange '0' '9' c || c == '/' || c == ' '
    || c == '@' || c == '*' || c == '?' || c == '%' || inRange '+' ':' c || c == '|'
    || c == '&' || c == '=' || c == '>' || c == '<' || c == '-'

/-- The value of a run of decimal digits, most significant first, added to `acc`. -/
def digitsValue : List Char → Nat → Nat
  | [], acc => acc
  | d :: rest, acc => digitsValue rest (acc * 10 + (d.toNat - '0'.toNat))

/-- The library parser `qi::int_` of Boost.Spirit, as its documentation describes it: an
optional sign `+` or `-`, then one or more
decimal digits; the value is a 32-bit `int`, and a number outside its range is no match. -/
def int_ (s : List Char) : PResult Int :=
  let neg := s.head? = some '-'
  let body := if s.head? = some '-' ∨ s.head? = some '+' then s.tail else s
  let digits := body.takeWhile Char.isDigit
  let rest := body.dropWhile Char.isDigit
  if digits = [] then PResult.fail
  else if neg then
    if digitsValue digits 0 ≤ 2147483648 then PResult.ok (-(digitsValue digits 0 : Int)) rest
    else PResult.fail
  else
    if digitsValue digits 0 ≤ 2147483647 then PResult.ok (digitsValue digits 0 : Int) rest
    else PResult.fail

/-- A delimited run `d >> *(qi::char_ - d) >> d`: the characters between the delimiters. -/
def delimited (d : Char) : List Char → PResult (List Char)
  | [] => PResult.fail
  | c :: rest =>
    if c = d then
      match rest.dropWhile (fun x => x != d) with
      | [] => PResult.fail
      | _ :: rest2 => PResult.ok (rest.takeWhile (fun x => x != d)) rest2
    else PResult.fail

/-- The rule `macro %= qi::lit('$') >> *(qi::char_ - '$') >> qi::lit('$')`. -/
def macroR (s : List Char) : PResult (List Char) :=
  delimited '$' s

/-- The rule `string %= qi::lexeme['^' >> *(qi::char_ - '^') >> '^']`. -/
def string (s : List Char) : PResult (List Char) :=
  delimited '^' s

/-- The first component of `iexp`, `-(*qi::char_("a-z") - 'u')`: when the input starts with
`u` the difference fails and the optional matches nothing; otherwise the Kleene star takes
the longest run of lowercase letters.  The attribute `varsym` is a
`boost::optional<std::string>`, which Spirit fills as a container: it becomes present with
the first letter appended to it and stays absent when the run is empty. -/
def varsymPart (s : List Char) : Option (List Char) × List Char :=
  if s.head? = some 'u' then (none, s)
  else
    (if s.takeWhile lowerLetter = [] then none else some (s.takeWhile lowerLetter),
      s.dropWhile lowerLetter)

/-- The second component of `iexp`, `-(qi::int_ | macro)`. -/
def valPart (s : List Char) : Option valItem × List Char :=
  match int_ s with
  | PResult.ok n rest => (some (valItem.int n), rest)
  | _ =>
    match macroR s with
    | PResult.ok m rest => (some (valItem.str m), rest)
    | _ => (none, s)

/-- The rule `iexp %= -(*qi::char_("a-z") - 'u') >> -(qi::int_ | macro)`. -/
def iexp (s : List Char) : PResult iexpT :=
  let v := varsymPart s
  let w := valPart v.2
  PResult.ok ⟨v.1, w.1⟩ w.2

/-- The rule `comment %= *(qi::char_)`. -/
def comment (s : List Char) : PResult (List Char) :=
  PResult.ok s []

/-- The rule `commentLine %= ~qi::char_('!') >> comment`; its attribute is the character
followed by the comment. -/
def commentLine : List Char → PResult (List Char)
  | [] => PResult.fail
  | c :: rest =>
    if c = '!' then PResult.fail
    else (comment rest).andThen (fun t r => PResult.ok (c :: t) r)

/-- The rule `cmdName %= qi::repeat(2)[qi::char_]`. -/
def cmdName : List Char → PResult (List Char)
  | a :: b :: rest => PResult.ok [a, b] rest
  | _ => PResult.fail

/-- The rule `arithmeticOp %= iexp >> qi::char_ >> iexp`. -/
def arithmeticOp (s : List Char) : PResult TArithmeticOp :=
  (iexp s).andThen (fun lhs r1 =>
    match r1 with
    | [] => PResult.fail
    | opcode :: r2 => (iexp r2).andThen (fun rhs r3 => PResult.ok ⟨lhs, opcode, rhs⟩ r3))

/-- The alternative `(iexp | arithmeticOp)` of the rule `identifier`. -/
def identifierItem (s : List Char) : PResult TIdentifierInternal :=
  orElse ((iexp s).andThen (fun e r => PResult.ok (TIdentifierInternal.iexp e) r))
    (fun _ => (arithmeticOp s).andThen (fun a r => PResult.ok (TIdentifierInternal.arith a) r))

/-- The repetition of the list operator in `identifier`: `qi::lit('/')` and an item, as long
as both match.  `fuel` bounds the number of rounds; each round consumes a `/`, so the length
of the input is enough. -/
def identifierTail : Nat → List Char → PResult (List TIdentifierInternal)
  | 0, s => PResult.ok [] s
  | fuel + 1, s =>
    match s with
    | [] => PResult.ok [] s
    | c :: r =>
      if c = '/' then
        match identifierItem r with
        | PResult.ok x r1 =>
          (identifierTail fuel r1).andThen (fun xs r2 => PResult.ok (x :: xs) r2)
        | PResult.fail => PResult.ok [] s
        | PResult.expectationFailure => PResult.expectationFailure
      else PResult.ok [] s

/-- The rule `identifier %= (iexp | arithmeticOp) % qi::lit('/')`. -/
def identifier (s : List Char) : PResult identifierT :=
  (identifierItem s).andThen (fun x r1 =>
    (identifierTail r1.length r1).andThen (fun xs r2 => PResult.ok (x :: xs) r2))

/-- The rule `comparison %= iexp >> (*qi::char_("<=>")) >> iexp`. -/
def comparison (s : List Char) : PResult TComparison :=
  (iexp s).andThen (fun lhs r1 =>
    (iexp (r1.dropWhile compSignChar)).andThen (fun rhs r2 =>
      PResult.ok ⟨lhs, r1.takeWhile compSignChar, rhs⟩ r2))

/-- The alternative `(comparison | qi::int_)` of the rule `condition`. -/
def conditionTerm (s : List Char) : PResult Tcond :=
  orElse ((comparison s).andThen (fun c r => PResult.ok (Tcond.comparison c) r))
    (fun _ => (int_ s).andThen (fun n r => PResult.ok (Tcond.flag n) r))

/-- The rule `condition %= qi::char_("&|X/") >> (comparison | qi::int_) >> -condition`,
with `fuel` bounding the depth of the recursion; each level consumes its `ctype`
character, so the length of the input is enough. -/
def conditionFuel : Nat → List Char → PResult conditionT
  | 0, _ => PResult.fail
  | fuel + 1, s =>
    match s with
    | [] => PResult.fail
    | c :: r =>
      if ctypeChar c then
        (conditionTerm r).andThen (fun t r1 =>
          (optional (conditionFuel fuel r1) r1).andThen (fun rhs r2 =>
            PResult.ok (conditionT.mk c t rhs) r2))
      else PResult.fail

/-- The rule `condition`. -/
def condition (s : List Char) : PResult conditionT :=
  conditionFuel s.length s

/-- One item of a body, `qi::char_("a-zA-Z0-9/ @*?%+-:|&=><-") | string | macro`. -/
def bodyItemP (s : List Char) : PResult bodyItem :=
  orElse
    (match s with
      | [] => PResult.fail
      | c :: r => if bodyChar c then PResult.ok (bodyItem.chr c) r else PResult.fail)
    (fun _ => orElse ((string s).andThen (fun t r => PResult.ok (bodyItem.str t) r))
      (fun _ => (macroR s).andThen (fun t r => PResult.ok (bodyItem.str t) r)))

/-- The Kleene star of the rule `body`: items as long as one matches.  `fuel` bounds the
number of items; each item consumes a character, so the length of the input is enough. -/
def bodyItems : Nat → List Char → PResult bodyTbody
  | 0, s => PResult.ok [] s
  | fuel + 1, s =>
    match bodyItemP s with
    | PResult.ok x r1 => (bodyItems fuel r1).andThen (fun xs r2 => PResult.ok (x :: xs) r2)
    | PResult.fail => PResult.ok [] s
    | PResult.expectationFailure => PResult.expectationFailure

/-- The expectation point `> qi::lit(";")`: a missing semicolon throws. -/
def expectSemicolon {α : Type} (a : α) : List Char → PResult α
  | [] => PResult.expectationFailure
  | c :: rest => if c = ';' then PResult.ok a rest else PResult.expectationFailure

/-- The rule `body %= qi::lit(":") > *(char set | string | macro) > qi::lit(";")`. -/
def body : List Char → PResult bodyTbody
  | [] => PResult.fail
  | c :: r =>
    if c = ':' then
      match bodyItems r.length r with
      | PResult.ok items r1 => expectSemicolon items r1
      | _ => PResult.expectationFailure
    else PResult.fail

/-- The sequence `cmdName >> -identifier >> -condition` shared by `trigger`, `instruction`
and `receiver`. -/
def commandHead (s : List Char) :
    PResult (List Char × Option identifierT × Option conditionT) :=
  (cmdName s).andThen (fun name r1 =>
    (optional (identifier r1) r1).andThen (fun ident r2 =>
      (optional (condition r2) r2).andThen (fun cond r3 =>
        PResult.ok (name, ident, cond) r3)))

/-- The rule `trigger %= cmdName >> -identifier >> -condition > qi::lit(";")`. -/
def trigger (s : List Char) : PResult triggerT :=
  (commandHead s).andThen (fun h r => expectSemicolon ⟨h.1, h.2.1, h.2.2⟩ r)

/-- The rule `instruction %= cmdName >> -identifier >> -condition >> body`. -/
def instruction (s : List Char) : PResult instructionT :=
  (commandHead s).andThen (fun h r =>
    (body r).andThen (fun b r1 => PResult.ok ⟨h.1, h.2.1, h.2.2, b⟩ r1))

/-- The rule `receiver %= cmdName >> -identifier >> -condition >> body`. -/
def receiver (s : List Char) : PResult receiverT :=
  (commandHead s).andThen (fun h r =>
    (body r).andThen (fun b r1 => PResult.ok ⟨h.1, h.2.1, h.2.2, b⟩ r1))

/-- The rule `postOBtrigger %= qi::lit("$OB") >> -identifier >> -condition > qi::lit(";")`. -/
def postOBtrigger : List Char → PResult postOBtriggerT
  | '$' :: 'O' :: 'B' :: r1 =>
    (optional (identifier r1) r1).andThen (fun ident r2 =>
      (optional (condition r2) r2).andThen (fun cond r3 =>
        expectSemicolon ⟨ident, cond⟩ r3))
  | _ => PResult.fail

/-- The alternative `(qi::lit("!") | qi::lit("d!") | qi::lit(" !"))` in front of a
receiver: the input after the literal that matched. -/
def receiverMark : List Char → PResult Unit
  | '!' :: r => PResult.ok () r
  | 'd' :: '!' :: r => PResult.ok () r
  | ' ' :: '!' :: r => PResult.ok () r
  | _ => PResult.fail

/-- The four alternatives of the rule `command`, after the leading `!`. -/
def commandKind (s : List Char) : PResult commandTcmd :=
  orElse
    (match s with
      | [] => PResult.fail
      | c :: r =>
        if c = '?' then (trigger r).andThen (fun t r1 => PResult.ok (commandTcmd.trigger t) r1)
        else PResult.fail)
    (fun _ => orElse
      ((receiverMark s).andThen (fun _ r =>
        (receiver r).andThen (fun t r1 => PResult.ok (commandTcmd.receiver t) r1)))
      (fun _ => orElse
        (match s with
          | [] => PResult.fail
          | c :: r =>
            if c = '#' then
              (instruction r).andThen (fun t r1 => PResult.ok (commandTcmd.instruction t) r1)
            else PResult.fail)
        (fun _ =>
          (postOBtrigger s).andThen (fun t r1 => PResult.ok (commandTcmd.postOBtrigger t) r1))))

/-- The rule `command %= qi::lit("!") >> (trigger | receiver | instruction | postOBtrigger,
each behind its mark) >> comment`. -/
def command : List Char → PResult commandT
  | [] => PResult.fail
  | c :: r =>
    if c = '!' then
      (commandKind r).andThen (fun k r1 =>
        (comment r1).andThen (fun t r2 => PResult.ok ⟨k, t⟩ r2))
    else PResult.fail

/-- The alternative `(command | commentLine | spirit::eps)` of the rule `rline`. -/
def rlineAlternatives (s : List Char) : PResult lineT :=
  orElse ((command s).andThen (fun c r => PResult.ok (lineT.command c) r))
    (fun _ => orElse ((commentLine s).andThen (fun t r => PResult.ok (lineT.comment t) r))
      (fun _ => PResult.ok lineT.unused s))

/-- The rule `rline %= (command | commentLine | spirit::eps) > spirit::eoi`. -/
def rline (s : List Char) : PResult lineT :=
  match rlineAlternatives s with
  | PResult.ok l [] => PResult.ok l []
  | PResult.ok _ (_ :: _) => PResult.expectationFailure
  | PResult.fail => PResult.fail
  | PResult.expectationFailure => PResult.expectationFailure

/-- The call `qi::parse(beg, end, ERMgrammar, AST)`: the handler `qi::on_error<qi::fail>`
of `rline` turns a thrown `expectation_failure` into a failed parse.  The result is the
AST and what is left between `beg` and `end`, or nothing when `r` is false. -/
def parse (line : List Char) : Option (lineT × List Char) :=
  match rline line with
  | PResult.ok ast rest => some (ast, rest)
  | PResult.fail => none
  | PResult.expectationFailure => none

end ERM

namespace ERMParser

/-- The AST of `parseLine` on `line` when parsing succeeded (`r && beg == end`), nothing
in the error branch. -/
def parseLineAST (line : List Char) : Option ERM.lineT :=
  match ERM.parse line with
  | some (ast, []) => some ast
  | _ => none

/-- The diagnostic of `parseLine`, `Parse error for line (n) : text`: its number and text. -/
structure ParseError where
  parsedLine : Nat
  line : List Char
  deriving DecidableEq, Repr

/-- `ERMParser::parseLine` during which the member `parsedLine` has the value of the call:
the diagnostic written, if any. -/
def parseLine (call : ParseCall) : Option ParseError :=
  match parseLineAST call.line with
  | some _ => none
  | none => some ⟨call.parsedLine, call.line⟩

/-- The diagnostics `parseFile` writes for a sequence of physical lines. -/
def parseErrors (st : ParserState) (lines : List (List Char)) : List ParseError :=
  (parseLines st lines).2.filterMap parseLine

/-- The receiver that `parseLine` builds for a line, when the line parses as a command whose
`cmd` is a receiver. -/
def receiverOf (line : List Char) : Option ERM.receiverT :=
  match parseLineAST line with
  | some (ERM.lineT.command ⟨ERM.commandTcmd.receiver r, _⟩) => some r
  | _ => none

end ERMParser

namespace ERM

/-- The i-expressions of an item of an identifier. -/
def TIdentifierInternal.iexps : TIdentifierInternal → List iexpT
  | TIdentifierInternal.iexp e => [e]
  | TIdentifierInternal.arith a => [a.lhs, a.rhs]

/-- The i-expressions of a term of a condition. -/
def Tcond.iexps : Tcond → List iexpT
  | Tcond.comparison c => [c.lhs, c.rhs]
  | Tcond.flag _ => []

/-- The terms `cond` along the chain of a condition, outermost first. -/
def conditionT.terms : conditionT → List Tcond
  | conditionT.mk _ cond none => [cond]
  | conditionT.mk _ cond (some rhs) => cond :: rhs.terms

/-- The field `identifier` of a command of any kind. -/
def commandTcmd.identifier : commandTcmd → Option identifierT
  | commandTcmd.trigger t => t.identifier
  | commandTcmd.instruction i => i.identifier
  | commandTcmd.receiver r => r.identifier
  | commandTcmd.postOBtrigger p => p.identifier

/-- The field `condition` of a command of any kind. -/
def commandTcmd.condition : commandTcmd → Option conditionT
  | commandTcmd.trigger t => t.condition
  | commandTcmd.instruction i => i.condition
  | commandTcmd.receiver r => r.condition
  | commandTcmd.postOBtrigger p => p.condition

/-- The terms of the condition chain of a command, none when there is no condition. -/
def commandTcmd.terms (k : commandTcmd) : List Tcond :=
  match k.condition with
  | none => []
  | some c => c.terms

/-- The shape of the field `identifier` that the grammar builds: present, with at least one
item, every item an i-expression that is a result of the rule `iexp`. -/
def identifierShape (ident : Option identifierT) : Prop :=
  ∃ items, ident = some items ∧ items ≠ [] ∧
    ∀ x ∈ items, ∃ t e r, iexp t = PResult.ok e r ∧ x = TIdentifierInternal.iexp e

/-- The shape of the field `condition` that the grammar builds: when present, every term of
its chain is a comparison that is a result of the rule `comparison`. -/
def conditionShape (cond : Option conditionT) : Prop :=
  ∀ c, cond = some c →
    ∀ t ∈ c.terms, ∃ u cmp r, comparison u = PResult.ok cmp r ∧ t = Tcond.comparison cmp

/-- All i-expressions in the AST of a command: those of its identifier items and those of
the terms of its condition chain. -/
def commandTcmd.iexps (k : commandTcmd) : List iexpT :=
  ((k.identifier.getD []).map TIdentifierInternal.iexps).flatten ++
    (k.terms.map Tcond.iexps).flatten

/-- All i-expressions in the AST of a line. -/
def lineT.iexps : lineT → List iexpT
  | lineT.command c => c.cmd.iexps
  | lineT.comment _ => []
  | lineT.unused => []

end ERM

namespace ERMParser

/-- The unformatted input function `std::istream::getline(buf, n)` on a stream in good
state, `room` being the number of characters that still fit into the buffer: the characters
stored, the input left unread, and whether the stream is still `good()`.  For each character
the end of the input is tested first (`eofbit`), then the delimiter (extracted and dropped),
then the room left (`failbit` when the buffer is full). -/
def getlineAux : Nat → List Char → List Char × List Char × Bool
  | _, [] => ([], [], false)
  | room, c :: rest =>
    if c = '\n' then ([], rest, true)
    else
      match room with
      | 0 => ([], c :: rest, false)
      | room + 1 =>
        let r := getlineAux room rest
        (c :: r.1, r.2.1, r.2.2)

/-- The call `file.getline(buf, n)`: at most `n - 1` characters are stored. -/
def getline (n : Nat) (input : List Char) : List Char × List Char × Bool :=
  getlineAux (n - 1) input

/-- The `std::string` that C++ builds from a character buffer: the characters in front of
the first null character. -/
def cString (buf : List Char) : List Char :=
  buf.takeWhile (fun c => c != Char.ofNat 0)

/-- The strings built from `lineBuf` in the successive iterations of `while(file.good())`,
each read by `file.getline(lineBuf, 1024)`; the loop ends after the iteration whose
`getline` left the stream not good.  `fuel` bounds the number of iterations; each iteration
that leaves the stream good has extracted a line terminator, so the length of the input
plus one is enough. -/
def readLoop : Nat → List Char → List (List Char)
  | 0, _ => []
  | fuel + 1, input =>
    let r := getline 1024 input
    cString r.1 :: (if r.2.2 then readLoop fuel r.2.1 else [])

/-- The physical lines that `parseFile` hands to its `switch` for a file that could be
opened, given the contents of the file: nothing when the header read by
`file.getline(header, 5)` is not `ZVSE`. -/
def fileLines (content : List Char) : Option (List (List Char)) :=
  let h := getline 5 content
  if cString h.1 = ['Z', 'V', 'S', 'E'] then
    some (if h.2.2 then readLoop (h.2.1.length + 1) h.2.1 else [])
  else none

/-- `ERMParser::parseFile` on a file that could be opened: the final values of the loop
variables and the calls of `parseLine` made, nothing when the header is wrong. -/
def parseFile (content : List Char) : Option (ParserState × List ParseCall) :=
  (fileLines content).map (parseLines initialState)

/-- The parse-error diagnostics that `parseFile` writes for a file with the right header. -/
def parseFileErrors (content : List Char) : List ParseError :=
  match parseFile content with
  | some r => r.2.filterMap parseLine
  | none => []

end ERMParser

/-! ## The line classifier -/

namespace ERMParser

/-- The counter of `countHatsLoop` grows by the number of hats before the first semicolon. -/
theorem countHatsLoop_eq (line : List Char) (numOfHats : Int) :
    countHatsLoop line numOfHats = numOfHats + (hatsBeforeFirstSemicolon line : Int) := by
  induction line generalizing numOfHats with
  | nil => simp [countHatsLoop, hatsBeforeFirstSemicolon]
  | cons c rest ih =>
    unfold countHatsLoop
    by_cases h1 : c = ';'
    · simp [h1, hatsBeforeFirstSemicolon]
    · by_cases h2 : c = '^'
      · subst h2
        have e : hatsBeforeFirstSemicolon ('^' :: rest) = hatsBeforeFirstSemicolon rest + 1 := by
          simp [hatsBeforeFirstSemicolon, List.takeWhile_cons]
        rw [if_neg h1, if_pos rfl, ih, e]
        push_cast
        ring
      · have e : hatsBeforeFirstSemicolon (c :: rest) = hatsBeforeFirstSemicolon rest := by
          simp [hatsBeforeFirstSemicolon, List.takeWhile_cons, h1, List.count_cons, h2]
        rw [if_neg h1, if_neg h2, ih, e]

/-- The function `countHatsBeforeSemicolon` returns the number of hats before the first
semicolon. -/
theorem countHats_eq (line : List Char) :
    countHatsBeforeSemicolon line = (hatsBeforeFirstSemicolon line : Int) := by
  simp [countHatsBeforeSemicolon, countHatsLoop_eq]

/-- What follows the first semicolon does not change the number of hats before it. -/
theorem hats_append_semicolon (L G : List Char) :
    hatsBeforeFirstSemicolon (L ++ ';' :: G) = hatsBeforeFirstSemicolon L := by
  induction L with
  | nil => simp [hatsBeforeFirstSemicolon]
  | cons c rest ih =>
    unfold hatsBeforeFirstSemicolon at ih ⊢
    by_cases h1 : c = ';'
    · simp [h1]
    · simp [List.takeWhile_cons, h1, List.count_cons, ih]

/-- The test `countHatsBeforeSemicolon(line) % 2 == 1` holds exactly for an odd number of
hats before the first semicolon. -/
theorem oddTest_iff (line : List Char) :
    (countHatsBeforeSemicolon line).tmod 2 = 1 ↔ hatsBeforeFirstSemicolon line % 2 = 1 := by
  rw [countHats_eq, Int.tmod_eq_emod (by omega) (by omega)]
  omega

/-- The test `line[0] == '!'` holds exactly for a line that starts with `!`. -/
theorem firstChar_iff (line : List Char) : firstChar line = '!' ↔ line.head? = some '!' := by
  cases line with
  | nil => simp [firstChar]
  | cons c rest => simp [firstChar]

/-- The four results of `classifyLine`, by the first character, the flag and the parity of
the number of hats before the first semicolon. -/
theorem classifyLine_cases (L : List Char) (inString : Bool) :
    classifyLine L inString =
      if L.head? = some '!' then
        (if hatsBeforeFirstSemicolon L % 2 = 1 then ELineType.UNFINISHED_STRING
          else ELineType.COMMAND_FULL)
      else if inString = true then
        (if hatsBeforeFirstSemicolon L % 2 = 1 then ELineType.END_OF_STRING
          else ELineType.UNFINISHED_STRING)
      else ELineType.COMMENT := by
  unfold classifyLine
  simp only [firstChar_iff, oddTest_iff]

/-- C4: `classifyLine` returns `COMMENT` exactly when the line does not start with `!` and
`inString` is false; the empty line is such a line. -/
theorem classifyLine_comment_iff (L : List Char) (inString : Bool) :
    (classifyLine L inString = ELineType.COMMENT ↔
      (L.head? ≠ some '!' ∧ inString = false)) ∧
    classifyLine [] false = ELineType.COMMENT := by
  refine ⟨?_, by decide⟩
  rw [classifyLine_cases]
  by_cases hb : L.head? = some '!' <;> by_cases hs : inString = true <;>
    by_cases hp : hatsBeforeFirstSemicolon L % 2 = 1 <;> simp [hb, hs, hp]

/-- The wrap-around of a 32-bit `int` lands in the range of `int`. -/
theorem int32_range (x : Int) : -2147483648 ≤ int32 x ∧ int32 x < 2147483648 := by
  unfold int32
  omega

/-- Wrapping after every increment is wrapping once at the end. -/
theorem int32_add (x k : Int) : int32 (int32 (x + 1) + k) = int32 (x + 1 + k) := by
  unfold int32
  omega

/-- A value in the range of `int` is not changed by the wrap-around. -/
theorem int32_of_range (x : Int) (h1 : -2147483648 ≤ x) (h2 : x < 2147483648) :
    int32 x = x := by
  unfold int32
  omega

/-- The 32-bit counter of `countHatsLoopInt32` ends at the wrap-around of its start plus the
number of hats before the first semicolon. -/
theorem countHatsLoopInt32_eq (line : List Char) (numOfHats : Int)
    (h1 : -2147483648 ≤ numOfHats) (h2 : numOfHats < 2147483648) :
    countHatsLoopInt32 line numOfHats =
      int32 (numOfHats + (hatsBeforeFirstSemicolon line : Int)) := by
  induction line generalizing numOfHats with
  | nil => simp [countHatsLoopInt32, hatsBeforeFirstSemicolon, int32_of_range _ h1 h2]
  | cons c rest ih =>
    unfold countHatsLoopInt32
    by_cases hs : c = ';'
    · simp [hs, hatsBeforeFirstSemicolon, int32_of_range _ h1 h2]
    · by_cases hh : c = '^'
      · subst hh
        have e : hatsBeforeFirstSemicolon ('^' :: rest) = hatsBeforeFirstSemicolon rest + 1 := by
          simp [hatsBeforeFirstSemicolon, List.takeWhile_cons]
        have hr := int32_range (numOfHats + 1)
        rw [if_neg hs, if_pos rfl, ih _ hr.1 hr.2, e, int32_add]
        push_cast
        congr 1
        ring
      · have e : hatsBeforeFirstSemicolon (c :: rest) = hatsBeforeFirstSemicolon rest := by
          simp [hatsBeforeFirstSemicolon, List.takeWhile_cons, hs, List.count_cons, hh]
        rw [if_neg hs, if_neg hh, ih _ h1 h2, e]

/-- The function `countHatsBeforeSemicolon` with its 32-bit counter returns the wrap-around
of the number of hats before the first semicolon. -/
theorem countHatsInt32_eq (line : List Char) :
    countHatsBeforeSemicolonInt32 line = int32 (hatsBeforeFirstSemicolon line : Int) := by
  rw [countHatsBeforeSemicolonInt32, countHatsLoopInt32_eq line 0 (by omega) (by omega),
    zero_add]

/-- On a line with fewer than `2^31` hats before its first semicolon the 32-bit counter does
not overflow: both loops return the same count. -/
theorem countHatsInt32_eq_unbounded (line : List Char)
    (h : hatsBeforeFirstSemicolon line < 2147483648) :
    countHatsBeforeSemicolonInt32 line = countHatsBeforeSemicolon line := by
  rw [countHatsInt32_eq, countHats_eq]
  exact int32_of_range _ (by omega) (by omega)

/-- A line of `k` hats has `k` hats before its first semicolon. -/
theorem hats_replicate (k : Nat) : hatsBeforeFirstSemicolon (List.replicate k '^') = k := by
  induction k with
  | zero => rfl
  | succ n ih =>
    have e : ∀ rest, hatsBeforeFirstSemicolon ('^' :: rest) =
        hatsBeforeFirstSemicolon rest + 1 := by
      intro rest
      simp [hatsBeforeFirstSemicolon, List.takeWhile_cons]
    rw [List.replicate_succ, e, ih]

/-- C5, refuted as stated: on the string of 2147483649 hats the 32-bit counter has wrapped
around and `countHatsBeforeSemicolon` returns -2147483647, which is negative and is not the
number of hats before the first semicolon. -/
theorem countHats_counterexample :
    countHatsBeforeSemicolonInt32 (List.replicate 2147483649 '^') = -2147483647 ∧
    ¬ (0 ≤ countHatsBeforeSemicolonInt32 (List.replicate 2147483649 '^') ∧
      countHatsBeforeSemicolonInt32 (List.replicate 2147483649 '^') =
        (hatsBeforeFirstSemicolon (List.replicate 2147483649 '^') : Int)) := by
  have h : countHatsBeforeSemicolonInt32 (List.replicate 2147483649 '^') = -2147483647 := by
    rw [countHatsInt32_eq, hats_replicate]
    unfold int32
    omega
  refine ⟨h, ?_⟩
  rw [h]
  intro hc
  omega

/-- C5, amended: appending `;` and any text to a string never changes what
`countHatsBeforeSemicolon` returns; and for a string with fewer than `2^31` hats before its
first `;` the result is not negative and is the number of `^` before the first `;`. -/
theorem countHats_append_semicolon (L G : List Char) :
    countHatsBeforeSemicolonInt32 (L ++ ';' :: G) = countHatsBeforeSemicolonInt32 L ∧
    (hatsBeforeFirstSemicolon L < 2147483648 →
      0 ≤ countHatsBeforeSemicolonInt32 L ∧
      countHatsBeforeSemicolonInt32 L = (hatsBeforeFirstSemicolon L : Int)) := by
  refine ⟨?_, ?_⟩
  · rw [countHatsInt32_eq, countHatsInt32_eq, hats_append_semicolon]
  · intro h
    rw [countHatsInt32_eq, int32_of_range _ (by omega) (by omega)]
    exact ⟨Int.ofNat_nonneg _, rfl⟩

/-- C5, amended, on the line `a^b^c` and the appended text `;^^`: the count is 2 with and
without the appended text. -/
theorem countHats_append_semicolon_witness :
    countHatsBeforeSemicolonInt32 ("a^b^c".toList ++ ';' :: "^^".toList) =
      countHatsBeforeSemicolonInt32 "a^b^c".toList ∧
    hatsBeforeFirstSemicolon "a^b^c".toList < 2147483648 ∧
    0 ≤ countHatsBeforeSemicolonInt32 "a^b^c".toList ∧
    countHatsBeforeSemicolonInt32 "a^b^c".toList =
      (hatsBeforeFirstSemicolon "a^b^c".toList : Int) :=
  ⟨(countHats_append_semicolon "a^b^c".toList "^^".toList).1, by decide,
    (countHats_append_semicolon "a^b^c".toList "^^".toList).2 (by decide)⟩

end ERMParser

/-! ## The reading loop of `parseFile` -/

namespace ERMParser

/-- The reading loop over no line. -/
theorem parseLines_nil (st : ParserState) : parseLines st [] = (st, []) := rfl

/-- The reading loop over a first line and the remaining ones. -/
theorem parseLines_cons (st : ParserState) (l : List Char) (rest : List (List Char)) :
    parseLines st (l :: rest) =
      ((parseLines (loopBody st l).1 rest).1,
        (loopBody st l).2 ++ (parseLines (loopBody st l).1 rest).2) := rfl

/-- The reading loop over two sequences of lines, one after the other. -/
theorem parseLines_append (st : ParserState) (a b : List (List Char)) :
    parseLines st (a ++ b) =
      ((parseLines (parseLines st a).1 b).1,
        (parseLines st a).2 ++ (parseLines (parseLines st a).1 b).2) := by
  induction a generalizing st with
  | nil => simp [parseLines_nil]
  | cons l rest ih => simp [parseLines_cons, ih, List.append_assoc]

/-- An iteration on a line classified `UNFINISHED_STRING`: the line is appended to
`wholeLine` (emptied first when no string was open), `inString` is set, nothing is parsed. -/
theorem loopBody_unfinished (st : ParserState) (L : List Char)
    (h : classifyLine L st.inString = ELineType.UNFINISHED_STRING) :
    loopBody st L =
      (⟨st.parsedLine + 1, (if st.inString then st.wholeLine else []) ++ L, true⟩, []) := by
  simp [loopBody, switchLine, h]

/-- An iteration on a line classified `END_OF_STRING`: the line is appended to `wholeLine`,
`inString` is cleared and `wholeLine` is parsed under the current value of `parsedLine`. -/
theorem loopBody_endOfString (st : ParserState) (L : List Char)
    (h : classifyLine L st.inString = ELineType.END_OF_STRING) :
    loopBody st L =
      (⟨st.parsedLine + 1, st.wholeLine ++ L, false⟩,
        [⟨st.parsedLine, st.wholeLine ++ L⟩]) := by
  simp [loopBody, switchLine, h]

/-- An iteration on a line classified `COMMAND_FULL` or `COMMENT`: the line is parsed on its
own; `wholeLine` and `inString` keep their values. -/
theorem loopBody_full (st : ParserState) (L : List Char)
    (h : classifyLine L st.inString = ELineType.COMMAND_FULL ∨
      classifyLine L st.inString = ELineType.COMMENT) :
    loopBody st L =
      (⟨st.parsedLine + 1, st.wholeLine, st.inString⟩, [⟨st.parsedLine, L⟩]) := by
  rcases h with h | h <;> simp [loopBody, switchLine, h]

/-- While a string is open no line is classified `COMMENT`. -/
theorem classifyLine_true_ne_comment (L : List Char) :
    classifyLine L true ≠ ELineType.COMMENT := by
  rw [classifyLine_cases]
  by_cases hb : L.head? = some '!' <;>
    by_cases hp : hatsBeforeFirstSemicolon L % 2 = 1 <;> simp [hb, hp]

/-- While a string is open, a line is classified `END_OF_STRING` exactly when it does not
start with `!` and has an odd number of hats before its first semicolon. -/
theorem classifyLine_true_end_iff (L : List Char) :
    classifyLine L true = ELineType.END_OF_STRING ↔
      (L.head? ≠ some '!' ∧ hatsBeforeFirstSemicolon L % 2 = 1) := by
  rw [classifyLine_cases]
  by_cases hb : L.head? = some '!' <;>
    by_cases hp : hatsBeforeFirstSemicolon L % 2 = 1 <;> simp [hb, hp]

/-- While a string is open, an iteration closes it exactly on an `END_OF_STRING` line. -/
theorem loopBody_inString_false_iff (st : ParserState) (L : List Char)
    (h : st.inString = true) :
    (loopBody st L).1.inString = false ↔ classifyLine L true = ELineType.END_OF_STRING := by
  cases hc : classifyLine L true <;> simp [loopBody, switchLine, h, hc]

/-- The reading loop over lines that are all classified `UNFINISHED_STRING` while a string
is open: they are appended to `wholeLine` in order and nothing is parsed. -/
theorem parseLines_continuations (mids : List (List Char)) (st : ParserState)
    (hin : st.inString = true)
    (hm : ∀ m ∈ mids, classifyLine m true = ELineType.UNFINISHED_STRING) :
    parseLines st mids =
      (⟨st.parsedLine + mids.length, st.wholeLine ++ mids.flatten, true⟩, []) := by
  induction mids generalizing st with
  | nil =>
    cases st
    simp_all [parseLines_nil]
  | cons m rest ih =>
    have h1 : classifyLine m st.inString = ELineType.UNFINISHED_STRING := by
      rw [hin]
      exact hm m (List.mem_cons_self m rest)
    rw [parseLines_cons, loopBody_unfinished st m h1]
    rw [ih _ rfl (fun x hx => hm x (List.mem_cons_of_mem m hx))]
    simp [hin, List.append_assoc]
    omega

/-- The reading loop over a multi-line command: a line classified `UNFINISHED_STRING` with
no string open, lines classified `UNFINISHED_STRING` inside the string, and a line
classified `END_OF_STRING`.  One call of `parseLine` is made, at the last line, with the
concatenation of the lines. -/
theorem parseLines_multiline (st : ParserState) (l0 : List Char) (mids : List (List Char))
    (lend : List Char) (h0 : st.inString = false)
    (h1 : classifyLine l0 false = ELineType.UNFINISHED_STRING)
    (hm : ∀ m ∈ mids, classifyLine m true = ELineType.UNFINISHED_STRING)
    (he : classifyLine lend true = ELineType.END_OF_STRING) :
    parseLines st (l0 :: (mids ++ [lend])) =
      (⟨st.parsedLine + mids.length + 2, l0 ++ mids.flatten ++ lend, false⟩,
        [⟨st.parsedLine + mids.length + 1, l0 ++ mids.flatten ++ lend⟩]) := by
  have h1a : classifyLine l0 st.inString = ELineType.UNFINISHED_STRING := by rw [h0]; exact h1
  rw [parseLines_cons, loopBody_unfinished st l0 h1a, parseLines_append,
    parseLines_continuations mids _ rfl hm, parseLines_cons, parseLines_nil]
  rw [loopBody_endOfString _ lend (by simpa using he)]
  simp [h0]
  omega

/-- C6, refuted as stated: with a string open and `!!IF:M^a` in the buffer, the line
`!!HE1:S;` is classified `COMMAND_FULL`; the iteration does not append it to the buffer and
does hand it to the grammar. -/
theorem insideString_commandFull_counterexample :
    classifyLine "!!HE1:S;".toList true = ELineType.COMMAND_FULL ∧
    ¬ ((loopBody ⟨2, "!!IF:M^a".toList, true⟩ "!!HE1:S;".toList).1.wholeLine =
          "!!IF:M^a".toList ++ "!!HE1:S;".toList ∧
        (loopBody ⟨2, "!!IF:M^a".toList, true⟩ "!!HE1:S;".toList).2 = [] ∧
        (loopBody ⟨2, "!!IF:M^a".toList, true⟩ "!!HE1:S;".toList).1.inString = true) := by
  decide

/-- C6, amended: while a string is open, a line that `classifyLine` reports as
`COMMAND_FULL` or `COMMENT` is in fact `COMMAND_FULL` (`COMMENT` is never reported then);
the iteration hands the line on its own to `parseLine` under the current line number,
leaves the buffer `wholeLine` unchanged and keeps `inString` set. -/
theorem insideString_commandFull (st : ParserState) (L : List Char)
    (hin : st.inString = true)
    (hc : classifyLine L st.inString = ELineType.COMMAND_FULL ∨
      classifyLine L st.inString = ELineType.COMMENT) :
    classifyLine L st.inString = ELineType.COMMAND_FULL ∧
    (loopBody st L).2 = [⟨st.parsedLine, L⟩] ∧
    (loopBody st L).1.wholeLine = st.wholeLine ∧
    (loopBody st L).1.inString = true := by
  refine ⟨?_, ?_⟩
  · rcases hc with hc | hc
    · exact hc
    · rw [hin] at hc
      exact absurd hc (classifyLine_true_ne_comment L)
  · rw [loopBody_full st L hc]
    simp [hin]

/-- C6, amended, at the buffer `!!IF:M^a` and the line `!!HE1:S;`. -/
theorem insideString_commandFull_witness :
    classifyLine "!!HE1:S;".toList true = ELineType.COMMAND_FULL ∧
    (loopBody ⟨2, "!!IF:M^a".toList, true⟩ "!!HE1:S;".toList).2 =
      [⟨2, "!!HE1:S;".toList⟩] ∧
    (loopBody ⟨2, "!!IF:M^a".toList, true⟩ "!!HE1:S;".toList).1.wholeLine =
      "!!IF:M^a".toList ∧
    (loopBody ⟨2, "!!IF:M^a".toList, true⟩ "!!HE1:S;".toList).1.inString = true :=
  insideString_commandFull ⟨2, "!!IF:M^a".toList, true⟩ "!!HE1:S;".toList rfl
    (Or.inl (by decide))

end ERMParser

/-! ## Multi-line commands -/

namespace ERMParser

/-- The diagnostic of `parseLine` carries the line number and the text of the call. -/
theorem parseLine_eq_some (c : ParseCall) (e : ParseError) (h : parseLine c = some e) :
    e.parsedLine = c.parsedLine ∧ e.line = c.line := by
  unfold parseLine at h
  split at h
  · simp at h
  · simp only [Option.some.injEq] at h
    subst h
    exact ⟨rfl, rfl⟩

/-- C7, refuted as stated: on the physical lines `!!IF:M^hello` and `world^;` the reading
loop does not hand the text `!!IF:M^hello\nworld^;` to the grammar: the terminator that
`getline` dropped is not put back. -/
theorem multilineString_counterexample :
    ¬ ((parseLines initialState ["!!IF:M^hello".toList, "world^;".toList]).2.map
        (fun c => c.line) = ["!!IF:M^hello\nworld^;".toList]) := by
  decide

/-- C7, amended: started with no string open (at any line number and with any old buffer
content), the reading loop on the physical lines `!!IF:M^hello` and `world^;` makes exactly
one call of `parseLine`, with the text `!!IF:M^helloworld^;` (no line break between the two
parts); that text parses as a receiver named `IF` whose body holds the string literal
`helloworld`. -/
theorem multilineString_reassembly (n : Nat) (w : List Char) :
    (parseLines ⟨n, w, false⟩ ["!!IF:M^hello".toList, "world^;".toList]).2.map
        (fun c => c.line) = ["!!IF:M^helloworld^;".toList] ∧
    (parseLines ⟨n, w, false⟩ ["!!IF:M^hello".toList, "world^;".toList]).1.inString = false ∧
    (receiverOf "!!IF:M^helloworld^;".toList).map (fun r => (r.name, r.body)) =
      some ("IF".toList, [ERM.bodyItem.chr 'M', ERM.bodyItem.str "helloworld".toList]) ∧
    ERM.bodyItem.str "helloworld".toList ∈
      ((receiverOf "!!IF:M^helloworld^;".toList).map (fun r => r.body)).getD [] := by
  refine ⟨?_, ?_, by decide, by decide⟩
  · rw [show ["!!IF:M^hello".toList, "world^;".toList] =
      "!!IF:M^hello".toList :: (([] : List (List Char)) ++ ["world^;".toList]) from rfl]
    rw [parseLines_multiline _ _ _ _ rfl (by decide) (by simp) (by decide)]
    rfl
  · rw [show ["!!IF:M^hello".toList, "world^;".toList] =
      "!!IF:M^hello".toList :: (([] : List (List Char)) ++ ["world^;".toList]) from rfl]
    rw [parseLines_multiline _ _ _ _ rfl (by decide) (by simp) (by decide)]

/-- C8, refuted as stated: the command that begins on the first line read (`!!IF:M^hello`)
and ends on the second (`world^`) is handed to `parseLine` under the number 2, and its
parse error is reported for line 2, not for line 1 where it began. -/
theorem multiline_lineNumber_counterexample :
    initialState.parsedLine = 1 ∧
    classifyLine "!!IF:M^hello".toList false = ELineType.UNFINISHED_STRING ∧
    classifyLine "world^".toList true = ELineType.END_OF_STRING ∧
    (parseLines initialState ["!!IF:M^hello".toList, "world^".toList]).2 =
      [⟨2, "!!IF:M^helloworld^".toList⟩] ∧
    parseErrors initialState ["!!IF:M^hello".toList, "world^".toList] =
      [⟨2, "!!IF:M^helloworld^".toList⟩] ∧
    ¬ (∀ c ∈ (parseLines initialState ["!!IF:M^hello".toList, "world^".toList]).2,
        c.parsedLine = initialState.parsedLine) := by
  decide

/-- C8, amended: for a logical line assembled from several physical lines (a line
classified `UNFINISHED_STRING` with no string open, read when `parsedLine` is `n`; then
lines classified `UNFINISHED_STRING` inside the string; then a line classified
`END_OF_STRING`), the only call of `parseLine` is made under the number of the physical
line on which the logical line ended, `n + k + 1` for `k` lines in between, and every
parse-error diagnostic carries that number, which is greater than `n`. -/
theorem multiline_lineNumber (st : ParserState) (l0 : List Char) (mids : List (List Char))
    (lend : List Char) (h0 : st.inString = false)
    (h1 : classifyLine l0 false = ELineType.UNFINISHED_STRING)
    (hm : ∀ m ∈ mids, classifyLine m true = ELineType.UNFINISHED_STRING)
    (he : classifyLine lend true = ELineType.END_OF_STRING) :
    (parseLines st (l0 :: (mids ++ [lend]))).2.map (fun c => c.parsedLine) =
      [st.parsedLine + mids.length + 1] ∧
    (∀ e ∈ parseErrors st (l0 :: (mids ++ [lend])),
      e.parsedLine = st.parsedLine + mids.length + 1) ∧
    st.parsedLine < st.parsedLine + mids.length + 1 := by
  refine ⟨?_, ?_, by omega⟩
  · rw [parseLines_multiline st l0 mids lend h0 h1 hm he]
    rfl
  · intro e hmem
    unfold parseErrors at hmem
    rw [parseLines_multiline st l0 mids lend h0 h1 hm he] at hmem
    obtain ⟨c, hc, hce⟩ := List.mem_filterMap.mp hmem
    rw [List.mem_singleton] at hc
    rw [(parseLine_eq_some c e hce).1, hc]

/-- C8, amended, on the three lines `!!IF:M^a`, `b`, `c^` read from line 1 on: the
assembled line is parsed, and its error reported, under the number 3. -/
theorem multiline_lineNumber_witness :
    (parseLines initialState
        ("!!IF:M^a".toList :: (["b".toList] ++ ["c^".toList]))).2.map
      (fun c => c.parsedLine) = [initialState.parsedLine + ["b".toList].length + 1] ∧
    (∀ e ∈ parseErrors initialState ("!!IF:M^a".toList :: (["b".toList] ++ ["c^".toList])),
      e.parsedLine = initialState.parsedLine + ["b".toList].length + 1) ∧
    initialState.parsedLine < initialState.parsedLine + ["b".toList].length + 1 :=
  multiline_lineNumber initialState "!!IF:M^a".toList ["b".toList] "c^".toList rfl
    (by decide) (by decide) (by decide)

end ERMParser

/-! ## Lines consumed while a string is open -/

namespace ERMParser

/-- While a string is open, an iteration keeps it open exactly on a line that starts with
`!` or has an even number of hats before its first semicolon. -/
theorem loopBody_inString_true_iff (st : ParserState) (L : List Char)
    (h : st.inString = true) :
    (loopBody st L).1.inString = true ↔
      (L.head? = some '!' ∨ hatsBeforeFirstSemicolon L % 2 = 0) := by
  have h1 := loopBody_inString_false_iff st L h
  rw [classifyLine_true_end_iff] at h1
  cases hb : (loopBody st L).1.inString
  · have := h1.mp hb
    constructor
    · intro hc
      cases hc
    · intro hc
      rcases hc with hc | hc
      · exact absurd hc this.1
      · omega
  · constructor
    · intro _
      by_contra hcon
      have hx : L.head? ≠ some '!' ∧ hatsBeforeFirstSemicolon L % 2 = 1 := by
        constructor
        · exact fun hh => hcon (Or.inl hh)
        · by_contra hodd
          exact hcon (Or.inr (by omega))
      have := h1.mpr hx
      rw [hb] at this
      cases this
    · intro _
      rfl

/-- C9, refuted as stated: with a string open, the lines `!^` and `^` bring `inString` back
to false for the first time after the second line; neither line has an even number of hats,
so the claimed count is 1, and 2 lines were consumed. -/
theorem insideString_lineCount_counterexample :
    (∀ k, k < [['!', '^'], ['^']].length →
      ((parseLines ⟨1, [], true⟩ ([['!', '^'], ['^']].take (k + 1))).1.inString = false ↔
        k + 1 = [['!', '^'], ['^']].length)) ∧
    [['!', '^'], ['^']].length ≠
      [['!', '^'], ['^']].countP (fun l => decide (hatsBeforeFirstSemicolon l % 2 = 0)) + 1 := by
  decide

/-- C9, amended: for a non-empty sequence of physical lines read with a string open, such
that `inString` is false after the last line and after no earlier one, the number of lines
equals the number of lines in it that start with `!` or have an even number of `^` before
the first `;`, plus one (the `END_OF_STRING` line). -/
theorem insideString_lineCount (st : ParserState) (lines : List (List Char))
    (hin : st.inString = true) (hne : lines ≠ [])
    (hret : ∀ k, k < lines.length →
      ((parseLines st (lines.take (k + 1))).1.inString = false ↔ k + 1 = lines.length)) :
    lines.length =
      lines.countP (fun l =>
        decide (l.head? = some '!') || decide (hatsBeforeFirstSemicolon l % 2 = 0)) + 1 := by
  induction lines generalizing st with
  | nil => exact absurd rfl hne
  | cons l rest ih =>
    have hfirst := hret 0 (by simp)
    simp only [List.take_succ_cons, List.take_zero, parseLines_cons, parseLines_nil,
      List.length_cons, zero_add] at hfirst
    cases rest with
    | nil =>
      have hf : (loopBody st l).1.inString = false := hfirst.mpr rfl
      have hnt : ¬ (l.head? = some '!' ∨ hatsBeforeFirstSemicolon l % 2 = 0) := by
        intro hc
        have := (loopBody_inString_true_iff st l hin).mpr hc
        rw [hf] at this
        cases this
      have hp : (decide (l.head? = some '!') ||
          decide (hatsBeforeFirstSemicolon l % 2 = 0)) = false := by
        simpa using hnt
      simp [List.countP_cons, hp]
    | cons r rs =>
      have ht : (loopBody st l).1.inString = true := by
        cases hb : (loopBody st l).1.inString
        · have := hfirst.mp hb
          simp at this
        · rfl
      have hp : (decide (l.head? = some '!') ||
          decide (hatsBeforeFirstSemicolon l % 2 = 0)) = true := by
        simpa using (loopBody_inString_true_iff st l hin).mp ht
      have hrest := ih (loopBody st l).1 ht (by simp) (by
        intro k hk
        have := hret (k + 1) (by simpa using hk)
        simp only [List.take_succ_cons, parseLines_cons, List.length_cons] at this ⊢
        rw [this]
        omega)
      rw [List.countP_cons, hp, if_pos rfl, List.length_cons, hrest]

/-- C9, amended, on the lines `!^`, `ab`, `^` read with a string open: three lines, two of
which start with `!` or have an even number of hats. -/
theorem insideString_lineCount_witness :
    [['!', '^'], ['a', 'b'], ['^']].length =
      [['!', '^'], ['a', 'b'], ['^']].countP (fun l =>
        decide (l.head? = some '!') || decide (hatsBeforeFirstSemicolon l % 2 = 0)) + 1 :=
  insideString_lineCount ⟨1, [], true⟩ [['!', '^'], ['a', 'b'], ['^']] rfl (by decide)
    (by decide)

end ERMParser

/-! ## Comment lines and empty lines -/

namespace ERMParser

/-- C10: a non-empty line whose first character is not `!` parses, as the comment-line
variant carrying the whole text of the line and not as a command; the empty line parses as
the empty variant. -/
theorem parseLine_commentLine (c : Char) (cs : List Char) (h : c ≠ '!') :
    parseLineAST (c :: cs) = some (ERM.lineT.comment (c :: cs)) ∧
    (∀ cmd, parseLineAST (c :: cs) ≠ some (ERM.lineT.command cmd)) ∧
    parseLine ⟨1, c :: cs⟩ = none ∧
    parseLineAST [] = some ERM.lineT.unused := by
  have e : parseLineAST (c :: cs) = some (ERM.lineT.comment (c :: cs)) := by
    simp [parseLineAST, ERM.parse, ERM.rline, ERM.rlineAlternatives, ERM.command,
      ERM.commentLine, ERM.comment, ERM.orElse, ERM.PResult.andThen, h]
  refine ⟨e, ?_, ?_, rfl⟩
  · intro cmd hc
    rw [e] at hc
    cases hc
  · simp [parseLine, e]

/-- C10 on the header-like line `ZVSE` and on the empty line. -/
theorem parseLine_commentLine_witness :
    parseLineAST "ZVSE".toList = some (ERM.lineT.comment "ZVSE".toList) ∧
    (∀ cmd, parseLineAST "ZVSE".toList ≠ some (ERM.lineT.command cmd)) ∧
    parseLine ⟨1, "ZVSE".toList⟩ = none ∧
    parseLineAST [] = some ERM.lineT.unused :=
  parseLine_commentLine 'Z' "VSE".toList (by decide)

end ERMParser

/-! ## The fuel of the grammar loops -/

namespace ERM

/-- Dropping a leading run does not lengthen a list. -/
theorem length_dropWhile_le (p : Char → Bool) (l : List Char) :
    (l.dropWhile p).length ≤ l.length :=
  (List.dropWhile_sublist p).length_le

/-- A match of `qi::int_` leaves no more than it was given. -/
theorem int_rest_le (s : List Char) (n : Int) (r : List Char) (h : int_ s = PResult.ok n r) :
    r.length ≤ s.length := by
  have hb : (if s.head? = some '-' ∨ s.head? = some '+' then s.tail else s).length ≤
      s.length := by
    split
    · simp
    · exact le_refl _
  have hd := length_dropWhile_le Char.isDigit
    (if s.head? = some '-' ∨ s.head? = some '+' then s.tail else s)
  simp only [int_] at h
  generalize (if s.head? = some '-' ∨ s.head? = some '+' then s.tail else s) = body
    at h hb hd
  split_ifs at h <;> simp only [PResult.ok.injEq] at h <;> (rw [← h.2]; omega)

/-- A delimited run consumes at least its opening delimiter. -/
theorem delimited_rest_lt (d : Char) (s : List Char) (a r : List Char)
    (h : delimited d s = PResult.ok a r) : r.length < s.length := by
  cases s with
  | nil => cases h
  | cons c rest =>
    have hd := length_dropWhile_le (fun x => x != d) rest
    simp only [delimited] at h
    split_ifs at h
    split at h
    · cases h
    · rename_i heq
      simp only [PResult.ok.injEq] at h
      rw [heq] at hd
      rw [← h.2]
      simp only [List.length_cons] at hd ⊢
      omega

/-- The rule `iexp` always matches, and leaves no more than it was given. -/
theorem iexp_ok (s : List Char) :
    ∃ e r, iexp s = PResult.ok e r ∧ r.length ≤ s.length := by
  refine ⟨_, _, rfl, ?_⟩
  have h1 : (varsymPart s).2.length ≤ s.length := by
    unfold varsymPart
    split
    · exact le_refl _
    · exact length_dropWhile_le _ _
  have h2 : ∀ t, (valPart t).2.length ≤ t.length := by
    intro t
    unfold valPart
    split
    · rename_i n rest heq
      exact int_rest_le t n rest heq
    · split
      · rename_i m rest heq
        exact le_of_lt (delimited_rest_lt '$' t m rest heq)
      · exact le_refl _
  exact le_trans (h2 _) h1

/-- The alternative `(iexp | arithmeticOp)` always takes its first branch. -/
theorem identifierItem_ok (s : List Char) :
    ∃ e r, iexp s = PResult.ok e r ∧
      identifierItem s = PResult.ok (TIdentifierInternal.iexp e) r ∧ r.length ≤ s.length := by
  obtain ⟨e, r, he, hr⟩ := iexp_ok s
  exact ⟨e, r, he, by simp [identifierItem, he, PResult.andThen, orElse], hr⟩

/-- The rule `comparison` always matches, and leaves no more than it was given. -/
theorem comparison_ok (s : List Char) :
    ∃ c r, comparison s = PResult.ok c r ∧ r.length ≤ s.length := by
  obtain ⟨e1, r1, he1, hr1⟩ := iexp_ok s
  obtain ⟨e2, r2, he2, hr2⟩ := iexp_ok (r1.dropWhile compSignChar)
  refine ⟨⟨e1, r1.takeWhile compSignChar, e2⟩, r2,
    by simp [comparison, he1, he2, PResult.andThen], ?_⟩
  have := length_dropWhile_le compSignChar r1
  omega

/-- The alternative `(comparison | qi::int_)` always takes its first branch. -/
theorem conditionTerm_ok (s : List Char) :
    ∃ c r, comparison s = PResult.ok c r ∧
      conditionTerm s = PResult.ok (Tcond.comparison c) r ∧ r.length ≤ s.length := by
  obtain ⟨c, r, hc, hr⟩ := comparison_ok s
  exact ⟨c, r, hc, by simp [conditionTerm, hc, PResult.andThen, orElse], hr⟩

/-- An item of a body consumes at least one character. -/
theorem bodyItemP_rest_lt (s : List Char) (x : bodyItem) (r : List Char)
    (h : bodyItemP s = PResult.ok x r) : r.length < s.length := by
  cases s with
  | nil => simp [bodyItemP, orElse, string, macroR, delimited, PResult.andThen] at h
  | cons c rest =>
    by_cases hc : bodyChar c = true
    · simp [bodyItemP, orElse, hc] at h
      rw [← h.2]
      simp
    · simp only [bodyItemP, hc, orElse] at h
      cases hs : string (c :: rest) with
      | ok t r1 =>
        simp [hs, PResult.andThen] at h
        rw [← h.2]
        exact delimited_rest_lt '^' _ t r1 hs
      | fail =>
        simp only [hs, PResult.andThen] at h
        cases hm : macroR (c :: rest) with
        | ok t r1 =>
          simp [hm] at h
          rw [← h.2]
          exact delimited_rest_lt '$' _ t r1 hm
        | fail => simp [hm] at h
        | expectationFailure => simp [hm] at h
      | expectationFailure => simp [hs, PResult.andThen] at h

/-- The Kleene star of `body` gives the same result for every fuel that is at least the
length of the input: the fuel never runs out before the input does. -/
theorem bodyItems_fuel (f1 f2 : Nat) (s : List Char) (h1 : s.length ≤ f1)
    (h2 : s.length ≤ f2) : bodyItems f1 s = bodyItems f2 s := by
  induction f1 generalizing f2 s with
  | zero =>
    have hs : s = [] := List.length_eq_zero.mp (Nat.le_zero.mp h1)
    subst hs
    cases f2 <;> rfl
  | succ n ih =>
    cases f2 with
    | zero =>
      have hs : s = [] := List.length_eq_zero.mp (Nat.le_zero.mp h2)
      subst hs
      rfl
    | succ m =>
      unfold bodyItems
      cases hx : bodyItemP s with
      | ok x r1 =>
        have := bodyItemP_rest_lt s x r1 hx
        simp only
        rw [ih m r1 (by omega) (by omega)]
      | fail => rfl
      | expectationFailure => rfl

/-- The repetition of `identifier` gives the same result for every fuel that is at least
the length of the input. -/
theorem identifierTail_fuel (f1 f2 : Nat) (s : List Char) (h1 : s.length ≤ f1)
    (h2 : s.length ≤ f2) : identifierTail f1 s = identifierTail f2 s := by
  induction f1 generalizing f2 s with
  | zero =>
    have hs : s = [] := List.length_eq_zero.mp (Nat.le_zero.mp h1)
    subst hs
    cases f2 <;> rfl
  | succ n ih =>
    cases f2 with
    | zero =>
      have hs : s = [] := List.length_eq_zero.mp (Nat.le_zero.mp h2)
      subst hs
      rfl
    | succ m =>
      cases s with
      | nil => rfl
      | cons c r =>
        obtain ⟨e, r1, _, hi, hr⟩ := identifierItem_ok r
        simp only [identifierTail, hi]
        simp only [List.length_cons] at h1 h2
        rw [ih m r1 (by omega) (by omega)]

/-- The rule `condition` gives the same result for every fuel that is at least the length
of the input. -/
theorem conditionFuel_fuel (f1 f2 : Nat) (s : List Char) (h1 : s.length ≤ f1)
    (h2 : s.length ≤ f2) : conditionFuel f1 s = conditionFuel f2 s := by
  induction f1 generalizing f2 s with
  | zero =>
    have hs : s = [] := List.length_eq_zero.mp (Nat.le_zero.mp h1)
    subst hs
    cases f2 <;> rfl
  | succ n ih =>
    cases f2 with
    | zero =>
      have hs : s = [] := List.length_eq_zero.mp (Nat.le_zero.mp h2)
      subst hs
      rfl
    | succ m =>
      cases s with
      | nil => rfl
      | cons c r =>
        obtain ⟨t, r1, _, hi, hr⟩ := conditionTerm_ok r
        simp only [conditionFuel, hi, PResult.andThen]
        simp only [List.length_cons] at h1 h2
        rw [ih m r1 (by omega) (by omega)]

end ERM

/-! ## The scenarios of the specification -/

namespace ERMParser

/-- C12, on the code: the line `!?MA&1001/v1;` parses as a trigger named `MA`, but its
identifier is present (one empty i-expression, matched on no input) and the term of its
outer condition is a comparison whose left side is the i-expression `1001`, not the
condition flag `1001`: `iexp`, and with it `comparison`, match before `qi::int_` is tried. -/
theorem trigger_MA_ast :
    parseLineAST "!?MA&1001/v1;".toList =
      some (ERM.lineT.command
        ⟨ERM.commandTcmd.trigger
          ⟨"MA".toList,
            some [ERM.TIdentifierInternal.iexp ⟨none, none⟩],
            some (ERM.conditionT.mk '&'
              (ERM.Tcond.comparison ⟨⟨none, some (ERM.valItem.int 1001)⟩, [], ⟨none, none⟩⟩)
              (some (ERM.conditionT.mk '/'
                (ERM.Tcond.comparison
                  ⟨⟨some ['v'], some (ERM.valItem.int 1)⟩, [], ⟨none, none⟩⟩)
                none)))⟩,
          []⟩) := by
  rfl

/-- C14, on the code: in `v1+2:S0;` the rule `identifier` takes the i-expression `v1` and
stops in front of `+`, so the line `!!VRv1+2:S0;` does not parse and a parse error is
written for it: `arithmeticOp` stands behind `iexp`, which always matches. -/
theorem receiver_VR_arithmetic :
    ERM.identifier "v1+2:S0;".toList =
      ERM.PResult.ok [ERM.TIdentifierInternal.iexp ⟨some ['v'], some (ERM.valItem.int 1)⟩]
        "+2:S0;".toList ∧
    parseLineAST "!!VRv1+2:S0;".toList = none ∧
    parseLine ⟨1, "!!VRv1+2:S0;".toList⟩ = some ⟨1, "!!VRv1+2:S0;".toList⟩ := by
  refine ⟨rfl, rfl, rfl⟩

/-- C16, refuted as stated: for the file `ZVSE\n!?;\n` the diagnostic written is not the one
for line 2. -/
theorem malformedLine_counterexample :
    ¬ (parseFileErrors "ZVSE\n!?;\n".toList = [⟨2, "!?;".toList⟩]) := by
  decide

/-- C16, amended: for the file `ZVSE\n!?;\n` the line `!?;` does not parse, exactly one
parse-error diagnostic is written, it carries the number 1 (`parsedLine` is 1 for the first
line after the header), and `inString` is false when `parseFile` ends. -/
theorem malformedLine_diagnostic :
    parseLineAST "!?;".toList = none ∧
    parseFileErrors "ZVSE\n!?;\n".toList = [⟨1, "!?;".toList⟩] ∧
    (parseFile "ZVSE\n!?;\n".toList).map (fun r => r.1.inString) = some false := by
  refine ⟨rfl, by decide, by decide⟩

/-- C17: the lines `!!X`, `!d!X` and `! !X` have the same outcome for every text `X`: when
the rule `receiver` matches on `X` they parse as the command holding that receiver, with
what `receiver` left as the comment, and otherwise none of them parses. -/
theorem receiver_marks_equal (X : List Char) :
    parseLineAST ('!' :: 'd' :: '!' :: X) = parseLineAST ('!' :: '!' :: X) ∧
    parseLineAST ('!' :: ' ' :: '!' :: X) = parseLineAST ('!' :: '!' :: X) ∧
    parseLineAST ('!' :: '!' :: X) =
      (match ERM.receiver X with
        | ERM.PResult.ok r rest =>
          some (ERM.lineT.command ⟨ERM.commandTcmd.receiver r, rest⟩)
        | ERM.PResult.fail => none
        | ERM.PResult.expectationFailure => none) := by
  have h1 : ∀ s : List Char, ERM.receiverMark s = ERM.PResult.ok () X →
      s.head? ≠ some '?' → s.head? ≠ some '#' → s.head? ≠ some '$' → s.head? ≠ none →
      parseLineAST ('!' :: s) =
        (match ERM.receiver X with
          | ERM.PResult.ok r rest =>
            some (ERM.lineT.command ⟨ERM.commandTcmd.receiver r, rest⟩)
          | ERM.PResult.fail => none
          | ERM.PResult.expectationFailure => none) := by
    intro s hm hq hh hd hn
    cases s with
    | nil => simp at hn
    | cons c r =>
      simp only [List.head?_cons, ne_eq, Option.some.injEq] at hq hh hd
      have hp : ERM.postOBtrigger (c :: r) = ERM.PResult.fail := by
        unfold ERM.postOBtrigger
        split
        · rename_i heq
          simp only [List.cons.injEq] at heq
          exact absurd heq.1 hd
        · rfl
      cases hr : ERM.receiver X <;>
        simp [parseLineAST, ERM.parse, ERM.rline, ERM.rlineAlternatives, ERM.command,
          ERM.commandKind, ERM.commentLine, ERM.comment, ERM.orElse, ERM.PResult.andThen,
          hm, hr, hq, hh, hp]
  have e1 := h1 ('!' :: X) rfl (by simp) (by simp) (by simp) (by simp)
  have e2 := h1 ('d' :: '!' :: X) rfl (by simp) (by simp) (by simp) (by simp)
  have e3 := h1 (' ' :: '!' :: X) rfl (by simp) (by simp) (by simp) (by simp)
  exact ⟨e2.trans e1.symm, e3.trans e1.symm, e1⟩

end ERMParser

/-! ## Reachability of the `END_OF_STRING` branch, assembly of multi-line commands -/

namespace ERMParser

/-- With no string open no line is classified `END_OF_STRING`. -/
theorem classifyLine_false_ne_end (L : List Char) :
    classifyLine L false ≠ ELineType.END_OF_STRING := by
  rw [classifyLine_cases]
  by_cases hb : L.head? = some '!' <;>
    by_cases hp : hatsBeforeFirstSemicolon L % 2 = 1 <;> simp [hb, hp]

/-- The reading loop, entered with no string open, over lines none of which is classified
`UNFINISHED_STRING`: every line is parsed on its own, `wholeLine` keeps its value and no
string is opened. -/
theorem parseLines_outside (pre : List (List Char)) (st : ParserState)
    (h0 : st.inString = false)
    (hpre : ∀ x ∈ pre, classifyLine x false ≠ ELineType.UNFINISHED_STRING) :
    (parseLines st pre).1 = ⟨st.parsedLine + pre.length, st.wholeLine, false⟩ ∧
    (parseLines st pre).2.map (fun c => c.line) = pre := by
  induction pre generalizing st with
  | nil =>
    cases st
    simp_all [parseLines_nil]
  | cons x rest ih =>
    have hx : classifyLine x st.inString = ELineType.COMMAND_FULL ∨
        classifyLine x st.inString = ELineType.COMMENT := by
      rw [h0]
      have h1 := hpre x (List.mem_cons_self x rest)
      have h2 := classifyLine_false_ne_end x
      cases hc : classifyLine x false <;> simp_all
    have hrest := ih ⟨st.parsedLine + 1, st.wholeLine, st.inString⟩ h0
      (fun y hy => hpre y (List.mem_cons_of_mem x hy))
    rw [parseLines_cons, loopBody_full st x hx]
    constructor
    · rw [hrest.1]
      simp only [List.length_cons, ParserState.mk.injEq, and_true]
      omega
    · simp [hrest.2]

/-- C18: with no string open no line is classified `END_OF_STRING`; so when the reading
loop is entered with `inString` false, as long as no line has been classified
`UNFINISHED_STRING` the flag is still false, the next line is not classified
`END_OF_STRING`, and what was handed to `parseLine` are the lines themselves, never the
buffer `wholeLine`, which is untouched. -/
theorem outside_endOfString_unreachable (st : ParserState) (pre : List (List Char))
    (l : List Char) (h0 : st.inString = false)
    (hpre : ∀ x ∈ pre, classifyLine x false ≠ ELineType.UNFINISHED_STRING) :
    classifyLine l false ≠ ELineType.END_OF_STRING ∧
    (parseLines st pre).1.inString = false ∧
    classifyLine l (parseLines st pre).1.inString ≠ ELineType.END_OF_STRING ∧
    (parseLines st pre).2.map (fun c => c.line) = pre ∧
    (parseLines st pre).1.wholeLine = st.wholeLine := by
  have h := parseLines_outside pre st h0 hpre
  have hf : (parseLines st pre).1.inString = false := by rw [h.1]
  refine ⟨classifyLine_false_ne_end l, hf, ?_, h.2, by rw [h.1]⟩
  rw [hf]
  exact classifyLine_false_ne_end l

/-- C18 on the lines `!?MA;` and `note` followed by `text^`: both are parsed on their own
and `text^`, read with no string open, is not classified `END_OF_STRING`. -/
theorem outside_endOfString_unreachable_witness :
    classifyLine "text^".toList false ≠ ELineType.END_OF_STRING ∧
    (parseLines initialState ["!?MA;".toList, "note".toList]).1.inString = false ∧
    classifyLine "text^".toList
      (parseLines initialState ["!?MA;".toList, "note".toList]).1.inString ≠
        ELineType.END_OF_STRING ∧
    (parseLines initialState ["!?MA;".toList, "note".toList]).2.map (fun c => c.line) =
      ["!?MA;".toList, "note".toList] ∧
    (parseLines initialState ["!?MA;".toList, "note".toList]).1.wholeLine =
      initialState.wholeLine :=
  outside_endOfString_unreachable initialState ["!?MA;".toList, "note".toList]
    "text^".toList rfl (by decide)

/-- C19: for a line `l0` that starts with `!` and has an odd number of hats before its first
semicolon, lines `mids` that do not start with `!` and have an even number, and a line
`lend` that does not start with `!` and has an odd number, the reading loop entered with no
string open (whatever `wholeLine` holds) makes no call of `parseLine` on `l0` and `mids`,
makes exactly one call on the whole sequence, with the concatenation of the lines in
order, and ends with no string open. -/
theorem multiline_assembly (st : ParserState) (l0 : List Char) (mids : List (List Char))
    (lend : List Char) (h0 : st.inString = false)
    (hb0 : l0.head? = some '!') (hp0 : hatsBeforeFirstSemicolon l0 % 2 = 1)
    (hm : ∀ m ∈ mids, m.head? ≠ some '!' ∧ hatsBeforeFirstSemicolon m % 2 = 0)
    (hbe : lend.head? ≠ some '!') (hpe : hatsBeforeFirstSemicolon lend % 2 = 1) :
    (parseLines st (l0 :: mids)).2 = [] ∧
    (parseLines st (l0 :: (mids ++ [lend]))).2.map (fun c => c.line) =
      [l0 ++ mids.flatten ++ lend] ∧
    (parseLines st (l0 :: (mids ++ [lend]))).2.length = 1 ∧
    (parseLines st (l0 :: (mids ++ [lend]))).1.inString = false := by
  have c0 : classifyLine l0 false = ELineType.UNFINISHED_STRING := by
    rw [classifyLine_cases]
    simp [hb0, hp0]
  have cm : ∀ m ∈ mids, classifyLine m true = ELineType.UNFINISHED_STRING := by
    intro m hmem
    have := hm m hmem
    rw [classifyLine_cases]
    simp [this.1, this.2]
  have ce : classifyLine lend true = ELineType.END_OF_STRING := by
    rw [classifyLine_cases]
    simp [hbe, hpe]
  have c0a : classifyLine l0 st.inString = ELineType.UNFINISHED_STRING := by
    rw [h0]
    exact c0
  refine ⟨?_, ?_, ?_, ?_⟩
  · rw [parseLines_cons, loopBody_unfinished st l0 c0a,
      parseLines_continuations mids _ rfl cm]
    rfl
  · rw [parseLines_multiline st l0 mids lend h0 c0 cm ce]
    rfl
  · rw [parseLines_multiline st l0 mids lend h0 c0 cm ce]
    rfl
  · rw [parseLines_multiline st l0 mids lend h0 c0 cm ce]

/-- C19 on the lines `!!IF:M^one`, `two`, `three^;`, with `old` left in the buffer. -/
theorem multiline_assembly_witness :
    (parseLines ⟨5, "old".toList, false⟩ ("!!IF:M^one".toList :: ["two".toList])).2 = [] ∧
    (parseLines ⟨5, "old".toList, false⟩
        ("!!IF:M^one".toList :: (["two".toList] ++ ["three^;".toList]))).2.map
      (fun c => c.line) =
      ["!!IF:M^one".toList ++ ["two".toList].flatten ++ "three^;".toList] ∧
    (parseLines ⟨5, "old".toList, false⟩
        ("!!IF:M^one".toList :: (["two".toList] ++ ["three^;".toList]))).2.length = 1 ∧
    (parseLines ⟨5, "old".toList, false⟩
        ("!!IF:M^one".toList :: (["two".toList] ++ ["three^;".toList]))).1.inString = false :=
  multiline_assembly ⟨5, "old".toList, false⟩ "!!IF:M^one".toList ["two".toList]
    "three^;".toList rfl (by decide) (by decide) (by decide) (by decide) (by decide)

end ERMParser

/-! ## Tokenisation of a body -/

namespace ERM

/-- The Kleene star of `body` on a run of characters of the body set followed by a
semicolon: one character item for each character, in order, up to the semicolon. -/
theorem bodyItems_bodyChars (w : List Char) (fuel : Nat) (rest : List Char)
    (hw : ∀ c ∈ w, bodyChar c = true) (hf : w.length ≤ fuel) :
    bodyItems fuel (w ++ ';' :: rest) = PResult.ok (w.map bodyItem.chr) (';' :: rest) := by
  induction w generalizing fuel with
  | nil =>
    cases fuel with
    | zero => rfl
    | succ f =>
      have h : bodyItemP (';' :: rest) = PResult.fail := by
        have h1 : bodyChar ';' = false := by decide
        simp [bodyItemP, orElse, string, macroR, delimited, PResult.andThen, h1]
      simp [bodyItems, h]
  | cons c w ih =>
    cases fuel with
    | zero => simp at hf
    | succ f =>
      have hc : bodyChar c = true := hw c (List.mem_cons_self c w)
      have h : bodyItemP (c :: (w ++ ';' :: rest)) =
          PResult.ok (bodyItem.chr c) (w ++ ';' :: rest) := by
        simp [bodyItemP, orElse, hc]
      have hrec := ih f (fun x hx => hw x (List.mem_cons_of_mem c hx))
        (by simpa using hf)
      simp [bodyItems, h, hrec, PResult.andThen]

/-- The rule `iexp` on a digit `1` followed by a colon: the integer 1, no variable symbol. -/
theorem iexp_one_colon (t : List Char) :
    iexp ('1' :: ':' :: t) = PResult.ok ⟨none, some (valItem.int 1)⟩ (':' :: t) := by
  have d1 : Char.isDigit '1' = true := by decide
  have d2 : Char.isDigit ':' = false := by decide
  have l1 : lowerLetter '1' = false := by decide
  simp [iexp, varsymPart, valPart, int_, digitsValue, List.takeWhile, List.dropWhile, d1, d2,
    l1]

end ERM

namespace ERMParser

/-- C13: for every text `w` made of characters of the body set, the line `!!HE1:w;` parses
as a command whose `cmd` is a receiver named `HE`, with the identifier holding the single
i-expression `1` (integer 1, no variable symbol), no condition, the body holding one
character item for each character of `w` in order, and an empty comment; for an empty `w`
the body is empty. -/
theorem receiver_HE_body (w : List Char) (hw : ∀ c ∈ w, ERM.bodyChar c = true) :
    parseLineAST ("!!HE1:".toList ++ w ++ [';']) =
      some (ERM.lineT.command
        ⟨ERM.commandTcmd.receiver
          ⟨"HE".toList, some [ERM.TIdentifierInternal.iexp ⟨none, some (ERM.valItem.int 1)⟩],
            none, w.map ERM.bodyItem.chr⟩,
          []⟩) := by
  have hline : "!!HE1:".toList ++ w ++ [';'] =
      '!' :: '!' :: 'H' :: 'E' :: '1' :: ':' :: (w ++ [';']) := by
    simp
  have hid : ERM.identifier ('1' :: ':' :: (w ++ [';'])) =
      ERM.PResult.ok [ERM.TIdentifierInternal.iexp ⟨none, some (ERM.valItem.int 1)⟩]
        (':' :: (w ++ [';'])) := by
    simp [ERM.identifier, ERM.identifierItem, ERM.iexp_one_colon, ERM.orElse,
      ERM.PResult.andThen, ERM.identifierTail]
  have hcond : ERM.condition (':' :: (w ++ [';'])) = ERM.PResult.fail := by
    have hc : ERM.ctypeChar ':' = false := by decide
    simp [ERM.condition, ERM.conditionFuel, hc]
  have hbody : ERM.body (':' :: (w ++ [';'])) =
      ERM.PResult.ok (w.map ERM.bodyItem.chr) [] := by
    have := ERM.bodyItems_bodyChars w (w.length + 1) [] hw (by omega)
    simp [ERM.body, this, ERM.expectSemicolon]
  rw [hline]
  simp [parseLineAST, ERM.parse, ERM.rline, ERM.rlineAlternatives, ERM.command,
    ERM.commandKind, ERM.receiverMark, ERM.receiver, ERM.commandHead, ERM.cmdName,
    ERM.optional, ERM.comment, ERM.orElse, ERM.PResult.andThen, hid, hcond, hbody]

/-- C13 on the body `Sx16` and on the empty body. -/
theorem receiver_HE_body_witness :
    parseLineAST ("!!HE1:".toList ++ "Sx16".toList ++ [';']) =
      some (ERM.lineT.command
        ⟨ERM.commandTcmd.receiver
          ⟨"HE".toList, some [ERM.TIdentifierInternal.iexp ⟨none, some (ERM.valItem.int 1)⟩],
            none, "Sx16".toList.map ERM.bodyItem.chr⟩,
          []⟩) :=
  receiver_HE_body "Sx16".toList (by decide)

end ERMParser

/-! ## The shape of a parsed command -/

namespace ERM

/-- The repetition of `identifier` always matches, and its items are results of `iexp`. -/
theorem identifierTail_ok (fuel : Nat) (s : List Char) :
    ∃ xs r, identifierTail fuel s = PResult.ok xs r ∧
      ∀ x ∈ xs, ∃ t e r1, iexp t = PResult.ok e r1 ∧ x = TIdentifierInternal.iexp e := by
  induction fuel generalizing s with
  | zero => exact ⟨[], s, rfl, by simp⟩
  | succ n ih =>
    cases s with
    | nil => exact ⟨[], [], rfl, by simp⟩
    | cons c r =>
      by_cases hc : c = '/'
      · obtain ⟨e, r1, he, hi, _⟩ := identifierItem_ok r
        obtain ⟨xs, r2, hxs, hall⟩ := ih r1
        refine ⟨TIdentifierInternal.iexp e :: xs, r2, ?_, ?_⟩
        · simp [identifierTail, hc, hi, hxs, PResult.andThen]
        · intro x hx
          rcases List.mem_cons.mp hx with hx | hx
          · exact ⟨r, e, r1, he, hx⟩
          · exact hall x hx
      · exact ⟨[], c :: r, by simp [identifierTail, hc], by simp⟩

/-- The rule `identifier` always matches, with at least one item, and its items are results
of `iexp`. -/
theorem identifier_ok (s : List Char) :
    ∃ items r, identifier s = PResult.ok items r ∧ items ≠ [] ∧
      ∀ x ∈ items, ∃ t e r1, iexp t = PResult.ok e r1 ∧ x = TIdentifierInternal.iexp e := by
  obtain ⟨e, r1, he, hi, _⟩ := identifierItem_ok s
  obtain ⟨xs, r2, hxs, hall⟩ := identifierTail_ok r1.length r1
  refine ⟨TIdentifierInternal.iexp e :: xs, r2, ?_, by simp, ?_⟩
  · simp [identifier, hi, hxs, PResult.andThen]
  · intro x hx
    rcases List.mem_cons.mp hx with hx | hx
    · exact ⟨s, e, r1, he, hx⟩
    · exact hall x hx

/-- The terms of a condition that the rule `condition` builds are results of `comparison`. -/
theorem conditionFuel_terms (fuel : Nat) (s : List Char) (c : conditionT) (r : List Char)
    (h : conditionFuel fuel s = PResult.ok c r) :
    ∀ t ∈ c.terms, ∃ u cmp r1, comparison u = PResult.ok cmp r1 ∧ t = Tcond.comparison cmp := by
  induction fuel generalizing s c r with
  | zero => simp [conditionFuel] at h
  | succ n ih =>
    cases s with
    | nil => simp [conditionFuel] at h
    | cons ch rest =>
      by_cases hc : ctypeChar ch = true
      · obtain ⟨cmp, r1, hcmp, hterm, _⟩ := conditionTerm_ok rest
        cases hrec : conditionFuel n r1 with
        | ok c2 r2 =>
          simp [conditionFuel, hc, hterm, hrec, PResult.andThen, optional] at h
          rw [← h.1]
          intro t ht
          simp only [conditionT.terms, List.mem_cons] at ht
          rcases ht with ht | ht
          · exact ⟨rest, cmp, r1, hcmp, ht⟩
          · exact ih r1 c2 r2 hrec t ht
        | fail =>
          simp [conditionFuel, hc, hterm, hrec, PResult.andThen, optional] at h
          rw [← h.1]
          intro t ht
          simp only [conditionT.terms, List.mem_singleton] at ht
          exact ⟨rest, cmp, r1, hcmp, ht⟩
        | expectationFailure =>
          simp [conditionFuel, hc, hterm, hrec, PResult.andThen, optional] at h
      · simp [conditionFuel, hc] at h

end ERM

namespace ERM

/-- A match of `cmdName >> -identifier >> -condition`: the name is the first two characters
of the input, and the identifier and the condition have the shapes of the grammar. -/
theorem commandHead_inv (s : List Char) (name : List Char) (ident : Option identifierT)
    (cond : Option conditionT) (r : List Char)
    (h : commandHead s = PResult.ok (name, ident, cond) r) :
    (∃ a b rest, s = a :: b :: rest ∧ name = [a, b]) ∧
    identifierShape ident ∧ conditionShape cond := by
  match s, h with
  | [], h => simp [commandHead, cmdName, PResult.andThen] at h
  | [_], h => simp [commandHead, cmdName, PResult.andThen] at h
  | a :: b :: rest, h =>
    obtain ⟨items, r1, hid, hne, hall⟩ := identifier_ok rest
    cases hc : condition r1 with
    | ok c r2 =>
      simp [commandHead, cmdName, hid, hc, optional, PResult.andThen] at h
      refine ⟨⟨a, b, rest, rfl, h.1.1.symm⟩, ⟨items, h.1.2.1.symm, hne, hall⟩, ?_⟩
      intro c2 hc2
      rw [← h.1.2.2] at hc2
      simp only [Option.some.injEq] at hc2
      subst hc2
      exact conditionFuel_terms _ _ _ _ hc
    | fail =>
      simp [commandHead, cmdName, hid, hc, optional, PResult.andThen] at h
      refine ⟨⟨a, b, rest, rfl, h.1.1.symm⟩, ⟨items, h.1.2.1.symm, hne, hall⟩, ?_⟩
      intro c2 hc2
      rw [← h.1.2.2] at hc2
      cases hc2
    | expectationFailure =>
      simp [commandHead, cmdName, hid, hc, optional, PResult.andThen] at h

end ERM

namespace ERM

/-- The expectation point `> qi::lit(";")` passes the attribute on unchanged. -/
theorem expectSemicolon_inv {α : Type} (a b : α) (s r : List Char)
    (h : expectSemicolon a s = PResult.ok b r) : b = a ∧ s = ';' :: r := by
  cases s with
  | nil => simp [expectSemicolon] at h
  | cons c rest =>
    by_cases hc : c = ';'
    · simp [expectSemicolon, hc] at h
      exact ⟨h.1.symm, by rw [hc, h.2]⟩
    · simp [expectSemicolon, hc] at h

/-- A match of the rule `trigger`. -/
theorem trigger_inv (s : List Char) (t : triggerT) (r : List Char)
    (h : trigger s = PResult.ok t r) :
    (∃ a b rest, s = a :: b :: rest ∧ t.name = [a, b]) ∧
    identifierShape t.identifier ∧ conditionShape t.condition := by
  cases hh : commandHead s with
  | ok hd r1 =>
    have hinv := commandHead_inv s hd.1 hd.2.1 hd.2.2 r1 hh
    simp only [trigger, hh, PResult.andThen] at h
    have := (expectSemicolon_inv _ _ _ _ h).1
    subst this
    exact hinv
  | fail => simp [trigger, hh, PResult.andThen] at h
  | expectationFailure => simp [trigger, hh, PResult.andThen] at h

/-- A match of the rule `receiver`. -/
theorem receiver_inv (s : List Char) (t : receiverT) (r : List Char)
    (h : receiver s = PResult.ok t r) :
    (∃ a b rest, s = a :: b :: rest ∧ t.name = [a, b]) ∧
    identifierShape t.identifier ∧ conditionShape t.condition := by
  cases hh : commandHead s with
  | ok hd r1 =>
    have hinv := commandHead_inv s hd.1 hd.2.1 hd.2.2 r1 hh
    cases hb : body r1 with
    | ok b r2 =>
      simp only [receiver, hh, hb, PResult.andThen, PResult.ok.injEq] at h
      rw [← h.1]
      exact hinv
    | fail => simp [receiver, hh, hb, PResult.andThen] at h
    | expectationFailure => simp [receiver, hh, hb, PResult.andThen] at h
  | fail => simp [receiver, hh, PResult.andThen] at h
  | expectationFailure => simp [receiver, hh, PResult.andThen] at h

/-- A match of the rule `instruction`. -/
theorem instruction_inv (s : List Char) (t : instructionT) (r : List Char)
    (h : instruction s = PResult.ok t r) :
    (∃ a b rest, s = a :: b :: rest ∧ t.name = [a, b]) ∧
    identifierShape t.identifier ∧ conditionShape t.condition := by
  cases hh : commandHead s with
  | ok hd r1 =>
    have hinv := commandHead_inv s hd.1 hd.2.1 hd.2.2 r1 hh
    cases hb : body r1 with
    | ok b r2 =>
      simp only [instruction, hh, hb, PResult.andThen, PResult.ok.injEq] at h
      rw [← h.1]
      exact hinv
    | fail => simp [instruction, hh, hb, PResult.andThen] at h
    | expectationFailure => simp [instruction, hh, hb, PResult.andThen] at h
  | fail => simp [instruction, hh, PResult.andThen] at h
  | expectationFailure => simp [instruction, hh, PResult.andThen] at h

/-- The rule `postOBtrigger` needs a leading `$`. -/
theorem postOBtrigger_fail (c : Char) (s : List Char) (hc : c ≠ '$') :
    postOBtrigger (c :: s) = PResult.fail := by
  unfold postOBtrigger
  split
  · rename_i heq
    simp only [List.cons.injEq] at heq
    exact absurd heq.1 hc
  · rfl

/-- A match of the rule `postOBtrigger`. -/
theorem postOBtrigger_inv (s : List Char) (p : postOBtriggerT) (r : List Char)
    (h : postOBtrigger s = PResult.ok p r) :
    identifierShape p.identifier ∧ conditionShape p.condition := by
  unfold postOBtrigger at h
  split at h
  · rename_i r1
    obtain ⟨items, r2, hid, hne, hall⟩ := identifier_ok r1
    cases hc : condition r2 with
    | ok c r3 =>
      simp only [hid, hc, optional, PResult.andThen] at h
      have := (expectSemicolon_inv _ _ _ _ h).1
      subst this
      refine ⟨⟨items, rfl, hne, hall⟩, ?_⟩
      intro c2 hc2
      simp only [Option.some.injEq] at hc2
      subst hc2
      exact conditionFuel_terms _ _ _ _ hc
    | fail =>
      simp only [hid, hc, optional, PResult.andThen] at h
      have := (expectSemicolon_inv _ _ _ _ h).1
      subst this
      refine ⟨⟨items, rfl, hne, hall⟩, ?_⟩
      intro c2 hc2
      cases hc2
    | expectationFailure => simp [hid, hc, optional, PResult.andThen] at h
  · cases h

/-- A match of the marks in front of a receiver. -/
theorem receiverMark_inv (s r : List Char) (h : receiverMark s = PResult.ok () r) :
    s = '!' :: r ∨ s = 'd' :: '!' :: r ∨ s = ' ' :: '!' :: r := by
  unfold receiverMark at h
  split at h <;> simp_all

end ERM

namespace ERM

/-- The marks in front of a receiver start with `!`, `d` or a space. -/
theorem receiverMark_fail (c : Char) (s : List Char) (h1 : c ≠ '!') (h2 : c ≠ 'd')
    (h3 : c ≠ ' ') : receiverMark (c :: s) = PResult.fail := by
  unfold receiverMark
  split
  · rename_i heq
    simp only [List.cons.injEq] at heq
    exact absurd heq.1 h1
  · rename_i heq
    simp only [List.cons.injEq] at heq
    exact absurd heq.1 h2
  · rename_i heq
    simp only [List.cons.injEq] at heq
    exact absurd heq.1 h3
  · rfl

/-- A match of the alternatives of `command`: which alternative matched, on what input. -/
theorem commandKind_inv (s : List Char) (k : commandTcmd) (r : List Char)
    (h : commandKind s = PResult.ok k r) :
    (∃ s1 t, s = '?' :: s1 ∧ trigger s1 = PResult.ok t r ∧ k = commandTcmd.trigger t) ∨
    (∃ s1 t, receiverMark s = PResult.ok () s1 ∧ receiver s1 = PResult.ok t r ∧
      k = commandTcmd.receiver t) ∨
    (∃ s1 t, s = '#' :: s1 ∧ instruction s1 = PResult.ok t r ∧
      k = commandTcmd.instruction t) ∨
    (∃ t, postOBtrigger s = PResult.ok t r ∧ k = commandTcmd.postOBtrigger t) := by
  cases s with
  | nil => simp [commandKind, orElse, receiverMark, postOBtrigger, PResult.andThen] at h
  | cons c r0 =>
    by_cases hq : c = '?'
    · subst hq
      have hm : receiverMark ('?' :: r0) = PResult.fail :=
        receiverMark_fail _ _ (by decide) (by decide) (by decide)
      have hp : postOBtrigger ('?' :: r0) = PResult.fail := postOBtrigger_fail _ _ (by decide)
      cases ht : trigger r0 with
      | ok t r1 =>
        simp [commandKind, orElse, ht, PResult.andThen] at h
        exact Or.inl ⟨r0, t, rfl, by rw [← h.2]; assumption, h.1.symm⟩
      | fail => simp [commandKind, orElse, ht, hm, hp, PResult.andThen] at h
      | expectationFailure => simp [commandKind, orElse, ht, PResult.andThen] at h
    · cases hm : receiverMark (c :: r0) with
      | ok u s1 =>
        have hc : c ≠ '#' ∧ c ≠ '$' := by
          rcases receiverMark_inv _ _ hm with e | e | e <;>
            simp only [List.cons.injEq] at e <;> rw [e.1] <;> decide
        have hp : postOBtrigger (c :: r0) = PResult.fail := postOBtrigger_fail _ _ hc.2
        cases hr : receiver s1 with
        | ok t r1 =>
          simp [commandKind, orElse, hq, hm, hr, PResult.andThen] at h
          exact Or.inr (Or.inl ⟨s1, t, rfl, by rw [← h.2]; assumption, h.1.symm⟩)
        | fail => simp [commandKind, orElse, hq, hm, hr, hc.1, hp, PResult.andThen] at h
        | expectationFailure => simp [commandKind, orElse, hq, hm, hr, PResult.andThen] at h
      | fail =>
        by_cases hh : c = '#'
        · subst hh
          have hp : postOBtrigger ('#' :: r0) = PResult.fail :=
            postOBtrigger_fail _ _ (by decide)
          cases hi : instruction r0 with
          | ok t r1 =>
            simp [commandKind, orElse, hm, hi, PResult.andThen] at h
            exact Or.inr (Or.inr (Or.inl ⟨r0, t, rfl, by rw [← h.2]; assumption, h.1.symm⟩))
          | fail => simp [commandKind, orElse, hm, hi, hp, PResult.andThen] at h
          | expectationFailure => simp [commandKind, orElse, hm, hi, PResult.andThen] at h
        · cases hp : postOBtrigger (c :: r0) with
          | ok t r1 =>
            simp [commandKind, orElse, hq, hm, hh, hp, PResult.andThen] at h
            exact Or.inr (Or.inr (Or.inr ⟨t, by rw [← h.2], h.1.symm⟩))
          | fail => simp [commandKind, orElse, hq, hm, hh, hp, PResult.andThen] at h
          | expectationFailure =>
            simp [commandKind, orElse, hq, hm, hh, hp, PResult.andThen] at h
      | expectationFailure => simp [commandKind, orElse, hq, hm, PResult.andThen] at h

end ERM

namespace ERMParser

/-- A line that parses as a command starts with `!`, and the alternatives of `command`
match on the rest of it, leaving the comment. -/
theorem parseLineAST_command (line : List Char) (c : ERM.commandT)
    (h : parseLineAST line = some (ERM.lineT.command c)) :
    ∃ s, line = '!' :: s ∧ ERM.commandKind s = ERM.PResult.ok c.cmd c.comment := by
  cases line with
  | nil => simp [parseLineAST, ERM.parse, ERM.rline, ERM.rlineAlternatives, ERM.command,
      ERM.commentLine, ERM.orElse, ERM.PResult.andThen] at h
  | cons ch s =>
    by_cases hb : ch = '!'
    · subst hb
      refine ⟨s, rfl, ?_⟩
      cases hk : ERM.commandKind s with
      | ok k r1 =>
        simp [parseLineAST, ERM.parse, ERM.rline, ERM.rlineAlternatives, ERM.command,
          ERM.comment, ERM.orElse, ERM.PResult.andThen, hk] at h
        rw [← h]
      | fail =>
        simp [parseLineAST, ERM.parse, ERM.rline, ERM.rlineAlternatives, ERM.command,
          ERM.commentLine, ERM.orElse, ERM.PResult.andThen, hk] at h
      | expectationFailure =>
        simp [parseLineAST, ERM.parse, ERM.rline, ERM.rlineAlternatives, ERM.command,
          ERM.orElse, ERM.PResult.andThen, hk] at h
    · simp [parseLineAST, ERM.parse, ERM.rline, ERM.rlineAlternatives, ERM.command,
        ERM.commentLine, ERM.comment, ERM.orElse, ERM.PResult.andThen, hb] at h

end ERMParser

namespace ERM

/-- A match of the alternatives of `command`: the identifier and the condition of the
command have the shapes of the grammar. -/
theorem commandKind_shape (s : List Char) (k : commandTcmd) (r : List Char)
    (h : commandKind s = PResult.ok k r) :
    identifierShape k.identifier ∧ conditionShape k.condition := by
  rcases commandKind_inv s k r h with ⟨s1, t, _, ht, hk⟩ | ⟨s1, t, _, ht, hk⟩ |
    ⟨s1, t, _, ht, hk⟩ | ⟨t, ht, hk⟩
  · subst hk
    exact (trigger_inv s1 t r ht).2
  · subst hk
    exact (receiver_inv s1 t r ht).2
  · subst hk
    exact (instruction_inv s1 t r ht).2
  · subst hk
    exact postOBtrigger_inv s t r ht

end ERM

/-! ## Command names, variable symbols, identifiers and conditions of parsed lines -/

namespace ERMParser

/-- C11: on every line that parses as a trigger, a receiver or an instruction, the field
`name` has length 2 and is made of the two characters that follow the mark of the command
(`!?`; `!!`, `!d!` or `! !`; `!#`), whatever these characters are. -/
theorem cmdName_two_chars (line : List Char) (c : ERM.commandT)
    (h : parseLineAST line = some (ERM.lineT.command c)) :
    (∀ t, c.cmd = ERM.commandTcmd.trigger t →
      t.name.length = 2 ∧ ∃ rest, line = '!' :: '?' :: (t.name ++ rest)) ∧
    (∀ t, c.cmd = ERM.commandTcmd.receiver t →
      t.name.length = 2 ∧ ∃ rest, line = '!' :: '!' :: (t.name ++ rest) ∨
        line = '!' :: 'd' :: '!' :: (t.name ++ rest) ∨
        line = '!' :: ' ' :: '!' :: (t.name ++ rest)) ∧
    (∀ t, c.cmd = ERM.commandTcmd.instruction t →
      t.name.length = 2 ∧ ∃ rest, line = '!' :: '#' :: (t.name ++ rest)) := by
  obtain ⟨s, hl, hk⟩ := parseLineAST_command line c h
  subst hl
  rcases ERM.commandKind_inv s c.cmd c.comment hk with ⟨s1, t0, hs, ht, hc⟩ |
    ⟨s1, t0, hs, ht, hc⟩ | ⟨s1, t0, hs, ht, hc⟩ | ⟨t0, ht, hc⟩
  · obtain ⟨⟨a, b, rest, hs1, hn⟩, _⟩ := ERM.trigger_inv s1 t0 _ ht
    refine ⟨?_, ?_, ?_⟩
    · intro t htr
      rw [hc] at htr
      cases htr
      exact ⟨by rw [hn]; rfl, rest, by rw [hs, hs1, hn]; rfl⟩
    · intro t htr
      rw [hc] at htr
      cases htr
    · intro t htr
      rw [hc] at htr
      cases htr
  · obtain ⟨⟨a, b, rest, hs1, hn⟩, _⟩ := ERM.receiver_inv s1 t0 _ ht
    refine ⟨?_, ?_, ?_⟩
    · intro t htr
      rw [hc] at htr
      cases htr
    · intro t htr
      rw [hc] at htr
      cases htr
      refine ⟨by rw [hn]; rfl, rest, ?_⟩
      rcases ERM.receiverMark_inv s s1 hs with e | e | e
      · exact Or.inl (by rw [e, hs1, hn]; rfl)
      · exact Or.inr (Or.inl (by rw [e, hs1, hn]; rfl))
      · exact Or.inr (Or.inr (by rw [e, hs1, hn]; rfl))
    · intro t htr
      rw [hc] at htr
      cases htr
  · obtain ⟨⟨a, b, rest, hs1, hn⟩, _⟩ := ERM.instruction_inv s1 t0 _ ht
    refine ⟨?_, ?_, ?_⟩
    · intro t htr
      rw [hc] at htr
      cases htr
    · intro t htr
      rw [hc] at htr
      cases htr
    · intro t htr
      rw [hc] at htr
      cases htr
      exact ⟨by rw [hn]; rfl, rest, by rw [hs, hs1, hn]; rfl⟩
  · refine ⟨?_, ?_, ?_⟩ <;>
    · intro t htr
      rw [hc] at htr
      cases htr

/-- C11 on the line `!!v1:;`, whose receiver is named `v1`: the letter and the digit are the
name, not an i-expression of the identifier. -/
theorem cmdName_two_chars_witness :
    parseLineAST "!!v1:;".toList =
      some (ERM.lineT.command
        ⟨ERM.commandTcmd.receiver
          ⟨"v1".toList, some [ERM.TIdentifierInternal.iexp ⟨none, none⟩], none, []⟩, []⟩) ∧
    "v1".toList.length = 2 ∧
    ∃ rest, "!!v1:;".toList = '!' :: '!' :: ("v1".toList ++ rest) ∨
      "!!v1:;".toList = '!' :: 'd' :: '!' :: ("v1".toList ++ rest) ∨
      "!!v1:;".toList = '!' :: ' ' :: '!' :: ("v1".toList ++ rest) :=
  ⟨rfl, (cmdName_two_chars "!!v1:;".toList
    ⟨ERM.commandTcmd.receiver
      ⟨"v1".toList, some [ERM.TIdentifierInternal.iexp ⟨none, none⟩], none, []⟩, []⟩
    rfl).2.1 _ rfl⟩

end ERMParser

namespace ERMParser

/-- C15, on the code: the line `!?MAvu1;` parses, and the only i-expression of its AST has
the variable symbol `vu`, which contains the letter `u`: in `*qi::char_("a-z") - 'u'` the
difference tests the first character of the run only. -/
theorem varsym_with_u :
    (parseLineAST "!?MAvu1;".toList).map ERM.lineT.iexps =
      some [⟨some ['v', 'u'], some (ERM.valItem.int 1)⟩] ∧
    ¬ (∀ ch ∈ ['v', 'u'], ERM.lowerLetter ch = true ∧ ch ≠ 'u') := by
  decide

/-- C20: the rule `iexp` matches on every input (possibly on nothing); and on every line
that parses as a command, the field `identifier` is present and non-empty, each of its items
is an i-expression (never an arithmetic operation), and each term of the condition chain is
a comparison (never a condition flag). -/
theorem command_identifier_condition (line : List Char) (c : ERM.commandT)
    (h : parseLineAST line = some (ERM.lineT.command c)) :
    (∀ s, ∃ e r, ERM.iexp s = ERM.PResult.ok e r) ∧
    (∃ items, c.cmd.identifier = some items ∧ items ≠ [] ∧
      ∀ x ∈ items, ∃ e, x = ERM.TIdentifierInternal.iexp e) ∧
    (∀ t ∈ c.cmd.terms, ∃ cmp, t = ERM.Tcond.comparison cmp) := by
  obtain ⟨s, _, hk⟩ := parseLineAST_command line c h
  obtain ⟨⟨items, hid, hne, hall⟩, hcond⟩ := ERM.commandKind_shape s c.cmd c.comment hk
  refine ⟨?_, ⟨items, hid, hne, ?_⟩, ?_⟩
  · intro u
    obtain ⟨e, r, he, _⟩ := ERM.iexp_ok u
    exact ⟨e, r, he⟩
  · intro x hx
    obtain ⟨_, e, _, _, hxe⟩ := hall x hx
    exact ⟨e, hxe⟩
  · intro t ht
    simp only [ERM.commandTcmd.terms] at ht
    cases hc : c.cmd.condition with
    | none => simp [hc] at ht
    | some cd =>
      simp only [hc] at ht
      obtain ⟨_, cmp, _, _, htc⟩ := hcond cd hc t ht
      exact ⟨cmp, htc⟩

/-- C20 on the line `!#VR&5:;`, where no identifier is written and the condition is the
number 5: the identifier holds one empty i-expression and the term is a comparison. -/
theorem command_identifier_condition_witness :
    parseLineAST "!#VR&5:;".toList =
      some (ERM.lineT.command
        ⟨ERM.commandTcmd.instruction
          ⟨"VR".toList, some [ERM.TIdentifierInternal.iexp ⟨none, none⟩],
            some (ERM.conditionT.mk '&'
              (ERM.Tcond.comparison ⟨⟨none, some (ERM.valItem.int 5)⟩, [], ⟨none, none⟩⟩)
              none),
            []⟩, []⟩) ∧
    ((∀ s, ∃ e r, ERM.iexp s = ERM.PResult.ok e r) ∧
    (∃ items, some [ERM.TIdentifierInternal.iexp ⟨none, none⟩] = some items ∧ items ≠ [] ∧
      ∀ x ∈ items, ∃ e, x = ERM.TIdentifierInternal.iexp e) ∧
    (∀ t ∈ [ERM.Tcond.comparison ⟨⟨none, some (ERM.valItem.int 5)⟩, [], ⟨none, none⟩⟩],
      ∃ cmp, t = ERM.Tcond.comparison cmp)) :=
  ⟨rfl, command_identifier_condition "!#VR&5:;".toList
    ⟨ERM.commandTcmd.instruction
      ⟨"VR".toList, some [ERM.TIdentifierInternal.iexp ⟨none, none⟩],
        some (ERM.conditionT.mk '&'
          (ERM.Tcond.comparison ⟨⟨none, some (ERM.valItem.int 5)⟩, [], ⟨none, none⟩⟩)
          none),
        []⟩, []⟩
    rfl⟩

end ERMParser

/-! ## The fuel of the reading loop -/

namespace ERMParser

/-- A call of `getline` that leaves the stream good has extracted a line terminator: the
input left is shorter. -/
theorem getlineAux_rest_lt (room : Nat) (input : List Char)
    (h : (getlineAux room input).2.2 = true) :
    (getlineAux room input).2.1.length < input.length := by
  induction input generalizing room with
  | nil => simp [getlineAux] at h
  | cons c rest ih =>
    by_cases hc : c = '\n'
    · cases room <;> simp [getlineAux, hc]
    · cases room with
      | zero => simp [getlineAux, hc] at h
      | succ n =>
        simp only [getlineAux, hc, if_false] at h ⊢
        have := ih n h
        simp only [List.length_cons]
        omega

/-- The reading loop visits the same lines for every fuel greater than the length of the
input: the fuel never runs out before the stream stops being good. -/
theorem readLoop_fuel (f1 f2 : Nat) (input : List Char) (h1 : input.length < f1)
    (h2 : input.length < f2) : readLoop f1 input = readLoop f2 input := by
  induction f1 generalizing f2 input with
  | zero => omega
  | succ n ih =>
    cases f2 with
    | zero => omega
    | succ m =>
      simp only [readLoop]
      by_cases hg : (getline 1024 input).2.2 = true
      · have hlt : (getline 1024 input).2.1.length < input.length :=
          getlineAux_rest_lt _ input hg
        rw [if_pos hg, if_pos hg, ih m _ (by omega) (by omega)]
      · rw [if_neg hg, if_neg hg]

end ERMParser
